import Mathlib

/-!
Verification development for the contextdb repository: a shallow embedding of
the Logoot position algebra (`internal/operations/logoot_position.go`), the
operation DAG (`internal/operations`), the positional document index
(`internal/positioning/document.go`), the stable-address resolver
(`internal/addressing`), and the collaboration engine facade
(`internal/collaboration/engine.go`), together with theorems settling the
specification's claims about them.

Modelling conventions:
* Go strings that are compared byte-wise (author identifiers) are modelled as
  lists of bytes (`List Nat`); Go string comparison is byte-wise lexicographic
  and is embedded as such.
* `big.Int` values are modelled as `Int`; `big.Int.Div` is Euclidean division,
  which is exactly Lean's `Int` division.
* Go maps are modelled as association lists with map-update (replace or add)
  semantics.
* The SHA3-256 position hash is treated as injective (as the specification
  stipulates), so a position's derived key is modelled as the exact byte
  string that the Go code feeds to the hasher.
* The document content hash uses a full executable model of SHA-256.
* Wall-clock timestamp fields (`time.Now()`) are omitted from embedded
  records; no claim under study depends on them.
-/

set_option autoImplicit false

namespace ContextDB

/-- Association-list lookup, modelling Go map reads (`m[k]`). -/
def lookupA {α β : Type} [DecidableEq α] : List (α × β) → α → Option β
  | [], _ => none
  | (k', v') :: rest, k => if k' = k then some v' else lookupA rest k

/-- Association-list update, modelling Go map writes (`m[k] = v`): the binding
for an existing key is replaced in place, otherwise the pair is appended. -/
def insertA {α β : Type} [DecidableEq α] : List (α × β) → α → β → List (α × β)
  | [], k, v => [(k, v)]
  | (k', v') :: rest, k, v =>
    if k' = k then (k, v) :: rest else (k', v') :: insertA rest k v

/-- Association-list removal, modelling Go map deletion (`delete(m, k)`). -/
def removeA {α β : Type} [DecidableEq α] : List (α × β) → α → List (α × β)
  | [], _ => []
  | (k', v') :: rest, k => if k' = k then rest else (k', v') :: removeA rest k

/-- Decidable equality for `Except`, so that results of the embedded fallible
functions can be evaluated on concrete inputs. -/
instance instDecEqExcept {ε α : Type} [DecidableEq ε] [DecidableEq α] :
    DecidableEq (Except ε α) := fun x y =>
  match x, y with
  | .error e, .error f =>
    if h : e = f then .isTrue (by rw [h])
    else .isFalse (fun hh => by cases hh; exact h rfl)
  | .ok a, .ok b =>
    if h : a = b then .isTrue (by rw [h])
    else .isFalse (fun hh => by cases hh; exact h rfl)
  | .error _, .ok _ => .isFalse (fun hh => Except.noConfusion hh)
  | .ok _, .error _ => .isFalse (fun hh => Except.noConfusion hh)

/-- Byte-wise lexicographic comparison of byte strings; this is exactly how Go
compares two `string` values with `<` and `>`. -/
def bytesCmp : List Nat → List Nat → Ordering
  | [], [] => .eq
  | [], _ :: _ => .lt
  | _ :: _, [] => .gt
  | a :: as, b :: bs =>
    if a < b then .lt else if b < a then .gt else bytesCmp as bs

/-- Three-way integer comparison, modelling `big.Int.Cmp`. -/
def intCmp (a b : Int) : Ordering :=
  if a < b then .lt else if b < a then .gt else .eq

/-- Author identifier (`operations.AuthorID`, a Go string), modelled as its
byte sequence so that Go's byte-wise string order is captured faithfully. -/
abbrev AuthorID := List Nat

/-- One segment of a Logoot position (`operations.PositionSegment`): an
arbitrary-precision integer value paired with an author identifier. A `nil`
`*big.Int` value (which only renders the position invalid in the source) is
not representable; `IsValid`'s nil check is subsumed by validity of `Int`. -/
structure PositionSegment where
  value : Int
  authorID : AuthorID
deriving DecidableEq

/-- A Logoot position (`operations.LogootPosition`): an ordered sequence of
segments. The cached `Hash` field of the Go struct is a pure function of the
segments (computed by `computeHash`) and is therefore modelled as the derived
function `positionKey` rather than a stored field. -/
structure LogootPosition where
  segments : List PositionSegment
deriving DecidableEq

/-- Minimal big-endian byte encoding of a natural number, modelling
`big.Int.Bytes` (the absolute value's big-endian bytes; zero encodes to the
empty slice). -/
def natBytesAux : Nat → Nat → List Nat
  | 0, _ => []
  | fuel + 1, n => if n = 0 then [] else natBytesAux fuel (n / 256) ++ [n % 256]

/-- Minimal big-endian byte encoding of a natural number, modelling
`big.Int.Bytes` (the absolute value's big-endian bytes; zero encodes to the
empty slice). The fuel argument of `natBytesAux` only forces structural
termination; `n` itself always suffices since `n / 256 < n` for positive `n`. -/
def natBytes (n : Nat) : List Nat :=
  natBytesAux n n

/-- Byte string contributed by one segment inside `computeHash`: the value's
`big.Int.Bytes` (absolute value, no sign, no length header) immediately
followed by the author's bytes, with no separator. -/
def segmentBytes (s : PositionSegment) : List Nat :=
  natBytes s.value.natAbs ++ s.authorID

/-- Exact byte string fed to the SHA3-256 hasher by
`LogootPosition.computeHash`: the concatenation of each segment's bytes. -/
def serializeSegments (segs : List PositionSegment) : List Nat :=
  (segs.map segmentBytes).flatten

/-- Derived position key (`LogootPosition.Key`). The source stores
`hex(SHA3-256(serializeSegments))`; the hash is treated as injective (per the
specification), so the key is modelled as the serialized byte string itself. -/
def positionKey (p : LogootPosition) : List Nat :=
  serializeSegments p.segments

/-- Segment-sequence comparison, the loop body of `LogootPosition.Compare`:
compare values first (`big.Int.Cmp`), then authors (Go string order), and when
one sequence is exhausted the shorter sequence is smaller. -/
def segListCmp : List PositionSegment → List PositionSegment → Ordering
  | [], [] => .eq
  | [], _ :: _ => .lt
  | _ :: _, [] => .gt
  | s :: ss, t :: ts =>
    match intCmp s.value t.value with
    | .lt => .lt
    | .gt => .gt
    | .eq =>
      match bytesCmp s.authorID t.authorID with
      | .lt => .lt
      | .gt => .gt
      | .eq => segListCmp ss ts

/-- Total comparison of positions (`LogootPosition.Compare`); `.lt` stands for
the Go result `-1`, `.eq` for `0`, `.gt` for `1`. -/
def LogootPosition.compare (p q : LogootPosition) : Ordering :=
  segListCmp p.segments q.segments

/-- Validity of a position (`LogootPosition.IsValid`): the segment list is
non-empty and every segment carries a non-empty author. -/
def LogootPosition.isValid (p : LogootPosition) : Bool :=
  ¬ p.segments.isEmpty && p.segments.all (fun s => ¬ s.authorID.isEmpty)

/-- Value of the first segment; only consulted on valid (hence non-empty)
positions, mirroring the unchecked `Segments[0]` accesses in the source. -/
def LogootPosition.firstValue (p : LogootPosition) : Int :=
  match p.segments with
  | [] => 0
  | s :: _ => s.value

/-- Length of the common prefix of two segment arrays, the first loop of
`generatePositionBetween`: the scan stops at the first index where either the
values or the authors differ, or at the end of the shorter array. -/
def commonPrefixLen : List PositionSegment → List PositionSegment → Nat
  | s :: ss, t :: ts =>
    if s.value = t.value ∧ s.authorID = t.authorID
    then commonPrefixLen ss ts + 1
    else 0
  | _, _ => 0

/-- Segment at index `k`; all call sites guarantee `k` is in bounds. -/
def segAt (segs : List PositionSegment) (k : Nat) : PositionSegment :=
  segs.getD k ⟨0, []⟩

/-- Core of `generatePositionBetween` (both arguments valid): emit the common
prefix, then either the midpoint `left[k] + ⌊diff/2⌋` when the first differing
values are more than one apart (`big.Int.Div` is Euclidean division, which
is exactly `Int` division `/` in Lean), or `left[k]` followed by a new `(1, author)` segment,
extending one level deeper; when one array is a prefix of the other, a new
`(1, author)` segment is appended after the prefix. -/
def generatePositionBetween (left right : LogootPosition) (authorID : AuthorID) :
    LogootPosition :=
  let minLen := min left.segments.length right.segments.length
  let k := commonPrefixLen left.segments right.segments
  let common := left.segments.take k
  if k < minLen then
    let leftVal := (segAt left.segments k).value
    let rightVal := (segAt right.segments k).value
    let diff := rightVal - leftVal
    if 1 < diff then
      ⟨common ++ [⟨leftVal + diff / 2, authorID⟩]⟩
    else
      ⟨common ++ [segAt left.segments k, ⟨1, authorID⟩]⟩
  else
    if left.segments.length = k then
      ⟨common ++ [⟨1, authorID⟩]⟩
    else
      ⟨common ++ [segAt left.segments k, ⟨1, authorID⟩]⟩

/-- Dense position generation (`operations.GeneratePosition`): both sides
invalid yields the initial `(1, author)` position; an invalid left yields
`(right[0].value − 1, author)` when that value is positive and otherwise
`(0, author)` prepended to `right`'s segments; an invalid right yields
`(left[0].value + 1, author)`; otherwise delegate to
`generatePositionBetween`. -/
def GeneratePosition (left right : LogootPosition) (authorID : AuthorID) :
    LogootPosition :=
  if ¬ left.isValid ∧ ¬ right.isValid then
    ⟨[⟨1, authorID⟩]⟩
  else if ¬ left.isValid then
    let value := right.firstValue - 1
    if value ≤ 0 then
      ⟨⟨0, authorID⟩ :: right.segments⟩
    else
      ⟨[⟨value, authorID⟩]⟩
  else if ¬ right.isValid then
    ⟨[⟨left.firstValue + 1, authorID⟩]⟩
  else
    generatePositionBetween left right authorID

/-! SHA-256 (`crypto/sha256`, FIPS 180-4), modelled executably over byte lists
with 32-bit words as `Nat` reduced modulo `2^32`. The document index stores
`sha256(content)` as its content hash; this model lets that equation be
evaluated on concrete documents. -/

/-- Reduce to a 32-bit word. -/
def w32 (n : Nat) : Nat := n % 4294967296

/-- Right rotation of a 32-bit word by `n` bits. -/
def rotr (n x : Nat) : Nat := w32 ((x >>> n) ||| (x <<< (32 - n)))

/-- Bitwise complement of a 32-bit word. -/
def not32 (x : Nat) : Nat := x ^^^ 4294967295

def bsig0 (x : Nat) : Nat := rotr 2 x ^^^ rotr 13 x ^^^ rotr 22 x

def bsig1 (x : Nat) : Nat := rotr 6 x ^^^ rotr 11 x ^^^ rotr 25 x

def ssig0 (x : Nat) : Nat := rotr 7 x ^^^ rotr 18 x ^^^ (x >>> 3)

def ssig1 (x : Nat) : Nat := rotr 17 x ^^^ rotr 19 x ^^^ (x >>> 10)

def ch (x y z : Nat) : Nat := (x &&& y) ^^^ (not32 x &&& z)

def maj (x y z : Nat) : Nat := (x &&& y) ^^^ (x &&& z) ^^^ (y &&& z)

/-- Fixed-width big-endian byte encoding. -/
def natToBytesBE : Nat → Nat → List Nat
  | 0, _ => []
  | width + 1, n => natToBytesBE width (n / 256) ++ [n % 256]

/-- SHA-256 message padding: append `0x80`, zero bytes up to 56 mod 64, then
the message bit length as eight big-endian bytes. -/
def shaPad (msg : List Nat) : List Nat :=
  let len := msg.length
  let zeros := (119 - len % 64) % 64
  msg ++ 128 :: List.replicate zeros 0 ++ natToBytesBE 8 (len * 8)

/-- Group bytes into big-endian 32-bit words. -/
def bytesToWords : List Nat → List Nat
  | b0 :: b1 :: b2 :: b3 :: rest =>
    (((b0 * 256 + b1) * 256 + b2) * 256 + b3) :: bytesToWords rest
  | _ => []

/-- Extend the 16-word message schedule to 64 words (fuel is 48). -/
def extendW : Nat → List Nat → List Nat
  | 0, w => w
  | k + 1, w =>
    let n := w.length
    extendW k (w ++ [w32 (ssig1 (w.getD (n - 2) 0) + w.getD (n - 7) 0 +
      ssig0 (w.getD (n - 15) 0) + w.getD (n - 16) 0)])

/-- Round constants of SHA-256 (FIPS 180-4, written in decimal). -/
def shaK : List Nat :=
  [1116352408, 1899447441, 3049323471, 3921009573, 961987163,
   1508970993, 2453635748, 2870763221, 3624381080, 310598401,
   607225278, 1426881987, 1925078388, 2162078206, 2614888103,
   3248222580, 3835390401, 4022224774, 264347078, 604807628,
   770255983, 1249150122, 1555081692, 1996064986, 2554220882,
   2821834349, 2952996808, 3210313671, 3336571891, 3584528711,
   113926993, 338241895, 666307205, 773529912, 1294757372,
   1396182291, 1695183700, 1986661051, 2177026350, 2456956037,
   2730485921, 2820302411, 3259730800, 3345764771, 3516065817,
   3600352804, 4094571909, 275423344, 430227734, 506948616,
   659060556, 883997877, 958139571, 1322822218, 1537002063,
   1747873779, 1955562222, 2024104815, 2227730452, 2361852424,
   2428436474, 2756734187, 3204031479, 3329325298]

/-- Initial hash state of SHA-256 (FIPS 180-4, written in decimal). -/
def shaH0 : List Nat :=
  [1779033703, 3144134277, 1013904242, 2773480762, 1359893119,
   2600822924, 528734635, 1541459225]

/-- One compression round on the state `[a,b,c,d,e,f,g,h]` with the round
constant and schedule word. -/
def shaRound (st : List Nat) (kw : Nat × Nat) : List Nat :=
  match st with
  | [a, b, c, d, e, f, g, h] =>
    let t1 := w32 (h + bsig1 e + ch e f g + kw.1 + kw.2)
    let t2 := w32 (bsig0 a + maj a b c)
    [w32 (t1 + t2), a, b, c, w32 (d + t1), e, f, g]
  | _ => st

/-- Compress one 64-byte block into the hash state. -/
def processBlock (h : List Nat) (block : List Nat) : List Nat :=
  let w := extendW 48 (bytesToWords block)
  let st := (shaK.zip w).foldl shaRound h
  (h.zip st).map (fun p => w32 (p.1 + p.2))

/-- Split into 64-byte chunks; the fuel argument (the byte count suffices)
only forces structural termination. -/
def chunksAux : Nat → List Nat → List (List Nat)
  | 0, _ => []
  | fuel + 1, l => if l.isEmpty then [] else l.take 64 :: chunksAux fuel (l.drop 64)

/-- SHA-256 of a byte string, as a list of 32 bytes. -/
def sha256 (msg : List Nat) : List Nat :=
  let padded := shaPad msg
  let hs := (chunksAux padded.length padded).foldl processBlock shaH0
  (hs.map (natToBytesBE 4)).flatten

/-- UTF-8 encoding of a character, as Go's `[]byte(string)` produces it. -/
def utf8Bytes (c : Char) : List Nat :=
  let n := c.toNat
  if n < 128 then [n]
  else if n < 2048 then [192 + n / 64, 128 + n % 64]
  else if n < 65536 then [224 + n / 4096, 128 + n / 64 % 64, 128 + n % 64]
  else [240 + n / 262144, 128 + n / 4096 % 64, 128 + n / 64 % 64, 128 + n % 64]

/-- UTF-8 bytes of a string (Go's `[]byte(s)`). -/
def strBytes (s : String) : List Nat :=
  (s.data.map utf8Bytes).flatten

/-! Operations and the operation DAG (`internal/operations`, the DAG file). -/

/-- Operation metadata (`operations.OperationMeta`); the free-form context map
is an association list of strings. -/
structure OperationMeta where
  sessionID : String
  intent : String
  context : List (String × String)
deriving DecidableEq

/-- An edit operation (`operations.Operation`). `OperationType` is a Go string
type, so `type` is modelled as a `String` (permitted values are `"insert"`,
`"delete"`, `"move"`, but nothing constrains the field by construction).
The author is a byte string like every `AuthorID`; the timestamp is modelled
as an integer (Unix nanoseconds). -/
structure Operation where
  id : String
  type : String
  position : LogootPosition
  content : String
  contentType : String
  length : Int
  author : AuthorID
  timestamp : Int
  parents : List String
  metadata : OperationMeta
deriving DecidableEq

/-- Errors of the operations package (`internal/operations/errors.go`),
restricted to those the embedded functions can return. -/
inductive DagError where
  | invalidOperation
  | invalidAuthor
  | invalidOperationType
  | operationNotFound
deriving DecidableEq

/-- The causal operation DAG (`operations.OperationDAG`): operations keyed by
identifier, a children adjacency map, the root list and the head list. -/
structure OperationDAG where
  operations : List (String × Operation)
  children : List (String × List String)
  roots : List String
  heads : List String
deriving DecidableEq

/-- Fresh DAG (`NewOperationDAG`). -/
def newOperationDAG : OperationDAG := ⟨[], [], [], []⟩

/-- Removal of the first occurrence of an identifier from the head list
(`OperationDAG.removeFromHeads`). -/
def removeFromHeads : List String → String → List String
  | [], _ => []
  | h :: t, id => if h = id then t else h :: removeFromHeads t id

/-- Body of the parent loop inside `AddOperation`: append the child identifier
to the parent's children list (a missing key reads as the empty list) and
remove the parent from the heads. -/
def addParentEdge (childID : String) (d : OperationDAG) (parentID : String) :
    OperationDAG :=
  { d with
    children := insertA d.children parentID
      ((lookupA d.children parentID).getD [] ++ [childID]),
    heads := removeFromHeads d.heads parentID }

/-- Insertion into the DAG (`OperationDAG.AddOperation`). A duplicate
identifier is a successful no-op; otherwise the operation is stored, added to
the roots when it has no parents, appended to each parent's children list
(removing each parent from the heads) otherwise, and finally appended to the
heads. The Go function returns `nil` on every path, so the error component of
the result is always `none`; note that no validation happens here. -/
def addOperation (dag : OperationDAG) (op : Operation) :
    OperationDAG × Option DagError :=
  if (lookupA dag.operations op.id).isSome then (dag, none)
  else
    let dag1 := { dag with operations := insertA dag.operations op.id op }
    let dag2 :=
      if op.parents.isEmpty then
        { dag1 with roots := dag1.roots ++ [op.id] }
      else
        op.parents.foldl (addParentEdge op.id) dag1
    ({ dag2 with heads := dag2.heads ++ [op.id] }, none)

/-- Validation (`OperationDAG.ValidateOperation`): reject a nil operation, an
empty author, and a kind outside the permitted set. The nil receiver case is
modelled by an `Option` argument. -/
def validateOperation (op? : Option Operation) : Except DagError Unit :=
  match op? with
  | none => .error .invalidOperation
  | some op =>
    if op.author = [] then .error .invalidAuthor
    else if op.type ≠ "insert" ∧ op.type ≠ "delete" ∧ op.type ≠ "move" then
      .error .invalidOperationType
    else .ok ()

/-- Children of an identifier as the Go map read yields them (absent key gives
the empty list). -/
def childrenOf (dag : OperationDAG) (id : String) : List String :=
  (lookupA dag.children id).getD []

/-- Depth-first post-order traversal of parents, the inner closure of
`OperationDAG.GetCausalHistory`: skip an already-visited identifier, mark the
identifier visited, stop if it is not stored, otherwise traverse all parents
in order and then append the operation. The accumulator carries the visited
set and the history being built. The fuel argument only forces structural
termination: a nested call either returns immediately or has first marked one
more stored identifier as visited, so `|operations| + 1` always suffices (the
wrapper `getCausalHistory` passes exactly that). -/
def dfs (ops : List (String × Operation)) : Nat → String →
    List String × List Operation → List String × List Operation
  | 0, _, acc => acc
  | fuel + 1, opID, acc =>
    if opID ∈ acc.1 then acc
    else
      match lookupA ops opID with
      | none => (opID :: acc.1, acc.2)
      | some op =>
        let acc' := op.parents.foldl (fun a p => dfs ops fuel p a)
          (opID :: acc.1, acc.2)
        (acc'.1, acc'.2 ++ [op])

/-- Causal history (`OperationDAG.GetCausalHistory`): run the traversal from
the target with an empty visited set and empty history. -/
def getCausalHistory (dag : OperationDAG) (id : String) : List Operation :=
  (dfs dag.operations (dag.operations.length + 1) id ([], [])).2

/-! The positional document index (`internal/positioning/document.go`). -/

/-- Semantic construct kinds (`positioning.ConstructType`). -/
inductive ConstructType where
  | content
  | documentation
  | test
  | configuration
  | reviewComment
  | discussion
  | decision
  | question
  | intent
  | context
  | reference
  | whitespace
  | newline
deriving DecidableEq

/-- Construct metadata (`positioning.ConstructMeta`); the floating-point
confidence field (always set to `1.0` by the embedded paths) is omitted. -/
structure ConstructMeta where
  semantic : String
  tags : List String
  references : List String
  attributes : List (String × String)
deriving DecidableEq

/-- A document's smallest addressable unit (`positioning.Construct`). -/
structure Construct where
  id : String
  content : String
  type : ConstructType
  position : LogootPosition
  createdBy : String
  modifiedBy : String
  metadata : ConstructMeta
deriving DecidableEq

/-- Errors of the positioning package (`internal/positioning`, error list). -/
inductive DocError where
  | invalidPosition
  | positionOccupied
  | constructNotFound
  | unsupportedOperation
  | invalidRange
deriving DecidableEq

/-- A positional document (`positioning.Document`): constructs and positions
keyed by derived position key, the sorted position sequence, the 32-byte
content hash, the version counter and the last applied operation. -/
structure Document where
  filePath : String
  constructs : List (List Nat × Construct)
  positionIndex : List (List Nat × LogootPosition)
  positionIdx : List LogootPosition
  contentHash : List Nat
  version : Nat
  lastOperation : String
deriving DecidableEq

/-- Fresh document (`positioning.NewDocument`); the content hash starts as the
zero value of `[32]byte`, i.e. thirty-two zero bytes — `updateContentHash` is
not called at creation. -/
def newDocument (filePath : String) : Document :=
  ⟨filePath, [], [], [], List.replicate 32 0, 0, ""⟩

/-- Rendered content: concatenation of construct content in position-index
order, the common loop of `Document.Render` and
`Document.updateContentHash`. -/
def renderString (doc : Document) : String :=
  doc.positionIdx.foldl (fun acc pos =>
    match lookupA doc.constructs (positionKey pos) with
    | some construct => acc ++ construct.content
    | none => acc) ""

/-- Content-hash refresh (`Document.updateContentHash`): SHA-256 of the
rendered content. -/
def updateContentHash (doc : Document) : Document :=
  { doc with contentHash := sha256 (strBytes (renderString doc)) }

/-- Sorted insertion into the position sequence
(`Document.insertPositionSorted`): the source inserts at the binary-search
lower bound (the first index whose element is not less than the new
position); on a sorted sequence that is exactly this ordered insertion. -/
def insertPositionSorted : List LogootPosition → LogootPosition →
    List LogootPosition
  | [], pos => [pos]
  | p :: rest, pos =>
    if p.compare pos = .lt then p :: insertPositionSorted rest pos
    else pos :: p :: rest

/-- Removal of the first position comparing equal
(`Document.removePositionFromIndex`). -/
def removePositionFromIndex : List LogootPosition → LogootPosition →
    List LogootPosition
  | [], _ => []
  | p :: rest, pos =>
    if p.compare pos = .eq then rest else p :: removePositionFromIndex rest pos

/-- Whitespace test (`positioning.isOnlyWhitespace`): non-empty and only
spaces or tabs. -/
def isOnlyWhitespace (content : String) : Bool :=
  content.data.all (fun r => r = ' ' || r = '\t') && ¬ content.data.isEmpty

/-- Intent switch of `Document.inferConstructType`: the recognized intent
strings map to a kind, anything else (including the empty intent) falls
through. -/
def intentKind (intent : String) : Option ConstructType :=
  match intent with
  | "documentation" | "comment" | "doc" => some .documentation
  | "test" | "testing" => some .test
  | "config" | "configuration" => some .configuration
  | "review" => some .reviewComment
  | "discussion" => some .discussion
  | "decision" => some .decision
  | "question" => some .question
  | "intent" => some .intent
  | "context" => some .context
  | "reference" => some .reference
  | _ => none

/-- Construct-kind inference (`Document.inferConstructType`): explicit intent
wins, then the metadata context `type`, then newline and whitespace
heuristics, else plain content. -/
def inferConstructType (content : String) (metadata : OperationMeta) :
    ConstructType :=
  match intentKind metadata.intent with
  | some t => t
  | none =>
    match lookupA metadata.context "type" with
    | some "documentation" => .documentation
    | some "test" => .test
    | some "configuration" => .configuration
    | some "review_comment" => .reviewComment
    | some "discussion" => .discussion
    | some "decision" => .decision
    | some "question" => .question
    | _ =>
      if content = "\n" ∨ content = "\r\n" then .newline
      else if isOnlyWhitespace content then .whitespace
      else .content

/-- Construct metadata assembly (`Document.buildConstructMeta`): the semantic
label is the operation's intent and the attributes copy the context map. -/
def buildConstructMeta (op : Operation) : ConstructMeta :=
  ⟨op.metadata.intent, [], [], op.metadata.context⟩

/-- Construct insertion (`Document.InsertConstruct`): fail on an invalid
position or an occupied position key; otherwise store the construct, insert
the position into the sorted sequence, bump the version and refresh the
content hash. -/
def Document.insertConstruct (doc : Document) (construct : Construct) :
    Except DocError Document :=
  if ¬ construct.position.isValid then .error .invalidPosition
  else
    let posKey := positionKey construct.position
    match lookupA doc.constructs posKey with
    | some _ => .error .positionOccupied
    | none =>
      .ok (updateContentHash
        { doc with
          constructs := insertA doc.constructs posKey construct,
          positionIndex := insertA doc.positionIndex posKey construct.position,
          positionIdx := insertPositionSorted doc.positionIdx construct.position,
          version := doc.version + 1 })

/-- Construct deletion (`Document.DeleteConstruct`): fail when nothing lives
at the position key; otherwise remove it everywhere, bump the version,
refresh the content hash and return the removed construct. -/
def Document.deleteConstruct (doc : Document) (pos : LogootPosition) :
    Except DocError (Document × Construct) :=
  let posKey := positionKey pos
  match lookupA doc.constructs posKey with
  | none => .error .constructNotFound
  | some construct =>
    .ok (updateContentHash
      { doc with
        constructs := removeA doc.constructs posKey,
        positionIndex := removeA doc.positionIndex posKey,
        positionIdx := removePositionFromIndex doc.positionIdx pos,
        version := doc.version + 1 }, construct)

/-- Application of an insert operation (`Document.applyInsert`): reject an
occupied position, otherwise build a construct whose creator and modifier are
the operation, store it, record the operation as last applied, bump the
version and refresh the content hash. -/
def Document.applyInsert (doc : Document) (op : Operation) :
    Except DocError Document :=
  let posKey := positionKey op.position
  match lookupA doc.constructs posKey with
  | some _ => .error .positionOccupied
  | none =>
    let constructType := inferConstructType op.content op.metadata
    let construct : Construct :=
      ⟨op.id, op.content, constructType, op.position, op.id, op.id,
       buildConstructMeta op⟩
    .ok (updateContentHash
      { doc with
        constructs := insertA doc.constructs posKey construct,
        positionIndex := insertA doc.positionIndex posKey op.position,
        positionIdx := insertPositionSorted doc.positionIdx op.position,
        lastOperation := op.id,
        version := doc.version + 1 })

/-- Application of a delete operation (`Document.applyDelete`): an unoccupied
position is a successful no-op that mutates nothing (not even the
last-applied marker); otherwise remove the construct, record the operation,
bump the version and refresh the content hash. The source's final write to
the removed construct's `ModifiedBy` field is unobservable through the
document and is dropped. -/
def Document.applyDelete (doc : Document) (op : Operation) :
    Except DocError Document :=
  let posKey := positionKey op.position
  match lookupA doc.constructs posKey with
  | none => .ok doc
  | some _ =>
    .ok (updateContentHash
      { doc with
        constructs := removeA doc.constructs posKey,
        positionIndex := removeA doc.positionIndex posKey,
        positionIdx := removePositionFromIndex doc.positionIdx op.position,
        lastOperation := op.id,
        version := doc.version + 1 })

/-- Operation dispatch (`Document.ApplyOperation`): insert and delete are
applied; every other kind — including `"move"` — falls to the `default`
branch and is rejected as unsupported. -/
def Document.applyOperation (doc : Document) (op : Operation) :
    Except DocError Document :=
  if op.type = "insert" then doc.applyInsert op
  else if op.type = "delete" then doc.applyDelete op
  else .error .unsupportedOperation

/-! The stable-address resolver (`internal/addressing`). -/

/-- Position range (`addressing.PositionRange`); `endPos` embeds the Go field
`End` (a reserved word in Lean). -/
structure PositionRange where
  start : LogootPosition
  endPos : LogootPosition
deriving DecidableEq

/-- Containment (`PositionRange.Contains`): `start ≤ pos ≤ end` under position
compare. -/
def PositionRange.contains (pr : PositionRange) (pos : LogootPosition) : Bool :=
  pos.compare pr.start ≠ Ordering.lt && pos.compare pr.endPos ≠ Ordering.gt

/-- Emptiness (`PositionRange.IsEmpty`): the start strictly exceeds the end. -/
def PositionRange.isEmpty (pr : PositionRange) : Bool :=
  pr.start.compare pr.endPos = Ordering.gt

/-- The zero value `PositionRange{}` that the source uses to mark deletion:
both endpoints are zero-value positions with no segments. -/
def emptyRange : PositionRange := ⟨⟨[]⟩, ⟨[]⟩⟩

/-- A stable address (`addressing.StableAddress`). -/
structure StableAddress where
  scheme : String
  repository : String
  operationID : String
  positionRange : PositionRange
  fragment : String
deriving DecidableEq

/-- Construction (`addressing.NewStableAddress`): constant scheme, no
fragment. -/
def newStableAddress (repo : String) (creationOp : String)
    (posRange : PositionRange) : StableAddress :=
  ⟨"contextdb", repo, creationOp, posRange, ""⟩

/-- Address lookup key (`addressing.AddressKey`), derived by
`StableAddress.Key` from the first sixteen characters of the operation
identifier and the first eight bytes of the two 256-bit position hashes. The
hex formatting of the Go key is an injective re-encoding and is dropped; the
truncated position hashes are treated as injective in the hashed bytes (the
specification's hash-injectivity convention) and are therefore modelled as
the full derived position keys. -/
abbrev AddressKey := String × List Nat × List Nat

/-- Key derivation (`StableAddress.Key`). -/
def StableAddress.key (addr : StableAddress) : AddressKey :=
  (addr.operationID.take 16,
   positionKey addr.positionRange.start,
   positionKey addr.positionRange.endPos)

/-- Movement reasons (`addressing.MovementReason`). -/
inductive MovementReason where
  | refactor
  | move
  | edit
  | delete
deriving DecidableEq

/-- One movement-log record (`addressing.MovementRecord`); the wall-clock
timestamp is omitted. -/
structure MovementRecord where
  fromRange : PositionRange
  toRange : PositionRange
  causedBy : String
  reason : MovementReason
deriving DecidableEq

/-- A resolved address (`addressing.ResolvedAddress`); the wall-clock
last-modified field is omitted. -/
structure ResolvedAddress where
  address : StableAddress
  currentRange : PositionRange
  constructs : List Construct
  creationOp : Operation
  isValid : Bool
  movementHistory : List MovementRecord
deriving DecidableEq

/-- Errors of the addressing package (`internal/addressing`, error list);
`addressExists` embeds the declared `ErrAddressExists`. -/
inductive ResolverError where
  | addressNotFound
  | operationNotFound
  | invalidAddress
  | invalidRange
  | addressExists
  | resolutionFailed
deriving DecidableEq

/-- The address resolver (`addressing.AddressResolver`) and its five
indices. -/
structure AddressResolver where
  operationIndex : List (String × Operation)
  constructIndex : List (List Nat × Construct)
  addressIndex : List (AddressKey × ResolvedAddress)
  forwardingTable : List (AddressKey × AddressKey)
  documents : List (String × Document)
deriving DecidableEq

/-- Fresh resolver (`addressing.NewAddressResolver`). -/
def newAddressResolver : AddressResolver := ⟨[], [], [], [], []⟩

/-- Constructs of the resolver index inside a range
(`AddressResolver.getConstructsInRange`); the Go code ranges over a map in
unspecified order, modelled here in index order. -/
def getConstructsInRangeR (constructIndex : List (List Nat × Construct))
    (posRange : PositionRange) : List Construct :=
  constructIndex.foldl (fun acc p =>
    if posRange.contains p.2.position then acc ++ [p.2] else acc) []

/-- Address creation (`AddressResolver.CreateAddress`): fail when the creating
operation is unknown; otherwise build the stable address, collect the
constructs currently inside the range and store a fresh resolved record —
valid, with an empty movement log — under the derived key. A key that is
already present is simply overwritten by the map write. -/
def createAddress (r : AddressResolver) (repo : String) (creationOpID : String)
    (posRange : PositionRange) :
    Except ResolverError (StableAddress × AddressResolver) :=
  match lookupA r.operationIndex creationOpID with
  | none => .error .operationNotFound
  | some creationOp =>
    let address := newStableAddress repo creationOpID posRange
    let constructs := getConstructsInRangeR r.constructIndex posRange
    let resolved : ResolvedAddress :=
      ⟨address, posRange, constructs, creationOp, true, []⟩
    .ok (address,
      { r with addressIndex := insertA r.addressIndex address.key resolved })

/-- Address resolution (`AddressResolver.ResolveAddress`): follow the
forwarding table once, then look up; the source returns a defensive copy,
which value semantics make implicit here. -/
def resolveAddress (r : AddressResolver) (addr : StableAddress) :
    Except ResolverError ResolvedAddress :=
  let addressKey := (lookupA r.forwardingTable addr.key).getD addr.key
  match lookupA r.addressIndex addressKey with
  | none => .error .addressNotFound
  | some resolved => .ok resolved

/-- Location update (`AddressResolver.UpdateAddressLocation`): append a
movement record, move the current range, recompute the contained constructs
and revalidate (non-empty range with at least one construct). -/
def updateAddressLocation (r : AddressResolver) (addr : StableAddress)
    (newRange : PositionRange) (causedBy : String) (reason : MovementReason) :
    Except ResolverError AddressResolver :=
  match lookupA r.addressIndex addr.key with
  | none => .error .addressNotFound
  | some resolved =>
    let movement : MovementRecord :=
      ⟨resolved.currentRange, newRange, causedBy, reason⟩
    let constructs := getConstructsInRangeR r.constructIndex newRange
    let resolved' :=
      { resolved with
        movementHistory := resolved.movementHistory ++ [movement],
        currentRange := newRange,
        constructs := constructs,
        isValid := ¬ newRange.isEmpty && ¬ constructs.isEmpty }
    .ok { r with addressIndex := insertA r.addressIndex addr.key resolved' }

/-- Movement tracking (`AddressResolver.TrackMovement`) simply forwards to the
location update, ignoring its from-range argument. -/
def trackMovement (r : AddressResolver) (addr : StableAddress)
    (_fromRange toRange : PositionRange) (causedBy : String)
    (reason : MovementReason) : Except ResolverError AddressResolver :=
  updateAddressLocation r addr toRange causedBy reason

/-- Movement-log read (`AddressResolver.GetAddressHistory`): a copy of the
log, or not-found. -/
def getAddressHistory (r : AddressResolver) (addr : StableAddress) :
    Except ResolverError (List MovementRecord) :=
  match lookupA r.addressIndex addr.key with
  | none => .error .addressNotFound
  | some resolved => .ok resolved.movementHistory

/-- Invalidation (`AddressResolver.InvalidateAddress`): clear the validity
flag and append a movement record with an empty to-range and no causing
operation. -/
def invalidateAddress (r : AddressResolver) (addr : StableAddress)
    (reason : MovementReason) : Except ResolverError AddressResolver :=
  match lookupA r.addressIndex addr.key with
  | none => .error .addressNotFound
  | some resolved =>
    let movement : MovementRecord :=
      ⟨resolved.currentRange, emptyRange, "", reason⟩
    let resolved' :=
      { resolved with
        isValid := false,
        movementHistory := resolved.movementHistory ++ [movement] }
    .ok { r with addressIndex := insertA r.addressIndex addr.key resolved' }

/-- Operation ingestion (`AddressResolver.IndexOperation`); the Go method
returns nil unconditionally. -/
def indexOperation (r : AddressResolver) (op : Operation) : AddressResolver :=
  { r with operationIndex := insertA r.operationIndex op.id op }

/-- Document ingestion (`AddressResolver.IndexDocument`): record the document
and merge each of its constructs into the construct index; the Go method
returns nil unconditionally. -/
def indexDocument (r : AddressResolver) (doc : Document) : AddressResolver :=
  { r with
    documents := insertA r.documents doc.filePath doc,
    constructIndex :=
      doc.constructs.foldl (fun ci p => insertA ci p.1 p.2) r.constructIndex }

/-- Affectedness test (`AddressResolver.operationAffectsAddress`): the
operation's position lies in the address's current range. -/
def operationAffectsAddress (op : Operation) (resolved : ResolvedAddress) :
    Bool :=
  resolved.currentRange.contains op.position

/-- Per-address transition (`AddressResolver.updateAddressForOperation`):
a delete inside the current range invalidates the address and empties the
range with reason delete; an insert keeps range and validity with reason
edit; a move keeps them with reason move; any other kind keeps the initial
reason edit. One movement record is appended, the current range is replaced
and the contained constructs recomputed. -/
def updateAddressForOperation (constructIndex : List (List Nat × Construct))
    (op : Operation) (resolved : ResolvedAddress) : ResolvedAddress :=
  let t : Bool × MovementReason × PositionRange :=
    if op.type = "delete" then
      if resolved.currentRange.contains op.position then
        (false, .delete, emptyRange)
      else (resolved.isValid, .delete, resolved.currentRange)
    else if op.type = "insert" then
      (resolved.isValid, .edit, resolved.currentRange)
    else if op.type = "move" then
      (resolved.isValid, .move, resolved.currentRange)
    else (resolved.isValid, .edit, resolved.currentRange)
  let movement : MovementRecord :=
    ⟨resolved.currentRange, t.2.2, op.id, t.2.1⟩
  { resolved with
    isValid := t.1,
    movementHistory := resolved.movementHistory ++ [movement],
    currentRange := t.2.2,
    constructs := getConstructsInRangeR constructIndex t.2.2 }

/-- Operation fan-out (`AddressResolver.ProcessOperation`): index the
operation, then apply the per-address transition to every address whose
current range contains the operation's position; the Go method returns nil
unconditionally. -/
def processOperationR (r : AddressResolver) (op : Operation) : AddressResolver :=
  let r1 := { r with operationIndex := insertA r.operationIndex op.id op }
  { r1 with
    addressIndex := r1.addressIndex.map (fun p =>
      if operationAffectsAddress op p.2 then
        (p.1, updateAddressForOperation r1.constructIndex op p.2)
      else p) }

/-! The collaboration engine facade (`internal/collaboration/engine.go`).
The storage collaborator is modelled as always succeeding with an empty
store, and the broadcast fan-out as a no-op; both are out-of-core
collaborators whose failure paths no claim under study concerns. -/

/-- Engine-level errors surfaced by `CollaborationEngine.ProcessOperation`
along the embedded paths. -/
inductive EngineError where
  | invalidOperation (e : DagError)
  | missingDocumentID
  | applyFailed (e : DocError)
deriving DecidableEq

/-- Engine state: the DAG, the resolver and the in-memory document cache. -/
structure EngineState where
  dag : OperationDAG
  resolver : AddressResolver
  documents : List (String × Document)
deriving DecidableEq

/-- Fresh engine (`NewCollaborationEngine`). -/
def newEngineState : EngineState := ⟨newOperationDAG, newAddressResolver, []⟩

/-- Go map read with the string zero value (`m["k"]` yields `""` when the key
is absent). -/
def contextGet (ctx : List (String × String)) (key : String) : String :=
  (lookupA ctx key).getD ""

/-- Tail of `CollaborationEngine.ProcessOperation` once the target document
identifier is fixed: load the cached document or create a fresh one
(`getOrLoadDocument` against the empty store), apply the operation — an
application error is surfaced with the state as mutated so far — then store
the document back, re-index it with the resolver and broadcast. -/
def engineApplyToDocument (st : EngineState) (op : Operation)
    (documentID : String) : EngineState × Option EngineError :=
  let doc := (lookupA st.documents documentID).getD (newDocument documentID)
  match doc.applyOperation op with
  | .error e => (st, some (.applyFailed e))
  | .ok doc' =>
    ({ st with
       documents := insertA st.documents documentID doc',
       resolver := indexDocument st.resolver doc' }, none)

/-- The engine spine (`CollaborationEngine.ProcessOperation`): validate,
insert into the DAG, persist (modelled as success), notify the resolver,
then resolve the target document from `metadata.context["document_id"]` —
when that is empty, a non-empty session identifier falls back to the document
`"default"`, and only an empty session identifier is rejected (after the DAG
and resolver have already been mutated). The state component of the result
always reflects the mutations performed before any error. -/
def engineProcessOperation (st : EngineState) (op : Operation) :
    EngineState × Option EngineError :=
  match validateOperation (some op) with
  | .error e => (st, some (.invalidOperation e))
  | .ok _ =>
    let st1 : EngineState :=
      { st with
        dag := (addOperation st.dag op).1,
        resolver := processOperationR st.resolver op }
    let documentID := contextGet op.metadata.context "document_id"
    if documentID = "" then
      if op.metadata.sessionID ≠ "" then
        engineApplyToDocument st1 op "default"
      else (st1, some .missingDocumentID)
    else engineApplyToDocument st1 op documentID

/-! Concrete sample values used to evaluate theorems on closed inputs. -/

/-- A sample insert operation at the single-segment position `(1, "a")`. -/
def sampleOp1 : Operation :=
  ⟨"op1", "insert", ⟨[⟨1, [97]⟩]⟩, "hello", "text", 0, [97], 0, [], ⟨"", "", []⟩⟩

/-- A sample delete operation at the same position. -/
def sampleDelete1 : Operation :=
  ⟨"d1", "delete", ⟨[⟨1, [97]⟩]⟩, "", "text", 0, [98], 0, [], ⟨"", "", []⟩⟩

/-- A sample stable address anchored at `[(1,"a"), (1,"a")]`. -/
def sampleAddress1 : StableAddress :=
  newStableAddress "repo" "op1" ⟨⟨[⟨1, [97]⟩]⟩, ⟨[⟨1, [97]⟩]⟩⟩

/-- The resolved record for `sampleAddress1`: valid, empty movement log. -/
def sampleResolved1 : ResolvedAddress :=
  ⟨sampleAddress1, ⟨⟨[⟨1, [97]⟩]⟩, ⟨[⟨1, [97]⟩]⟩⟩, [], sampleOp1, true, []⟩

/-- A sample resolver holding `sampleOp1` and the resolved `sampleAddress1`. -/
def sampleResolver1 : AddressResolver :=
  ⟨[("op1", sampleOp1)], [], [(sampleAddress1.key, sampleResolved1)], [], []⟩

/-- Sample operations forming the specification's diamond
`o1 ← o2, o1 ← o3, {o2,o3} ← o4`. -/
def sampleO1 : Operation :=
  ⟨"o1", "insert", ⟨[⟨1, [97]⟩]⟩, "a", "text", 0, [97], 0, [], ⟨"", "", []⟩⟩

def sampleO2 : Operation :=
  ⟨"o2", "insert", ⟨[⟨2, [97]⟩]⟩, "b", "text", 0, [97], 0, ["o1"], ⟨"", "", []⟩⟩

def sampleO3 : Operation :=
  ⟨"o3", "insert", ⟨[⟨3, [97]⟩]⟩, "c", "text", 0, [97], 0, ["o1"], ⟨"", "", []⟩⟩

def sampleO4 : Operation :=
  ⟨"o4", "insert", ⟨[⟨4, [97]⟩]⟩, "d", "text", 0, [97], 0, ["o2", "o3"],
   ⟨"", "", []⟩⟩

/-! Derived notions used to state the claims. -/

/-- Identifier sequence of a history. -/
def opIds (h : List Operation) : List String := h.map (fun o => o.id)

/-- Direct parent step through the stored operations: `c`'s stored record
lists `p` among its parents. The ancestor relation of the claims is the
transitive closure of this step. -/
def opStep (ops : List (String × Operation)) (c p : String) : Prop :=
  ∃ op, lookupA ops c = some op ∧ p ∈ op.parents

/-- Strict precedence inside a list: `y` occurs somewhere strictly before
`x`. -/
def before (h : List Operation) (y x : Operation) : Prop :=
  ∃ l₁ l₂ l₃, h = l₁ ++ y :: l₂ ++ x :: l₃

/-- Number of stored identifiers not yet visited; the traversal's fuel only
needs to exceed this quantity. -/
def freshStored (ops : List (String × Operation)) (visited : List String) : Nat :=
  (ops.map Prod.fst).countP (fun k => decide (k ∉ visited))

/-- Accumulator form of the parents-before-children property of a history:
each element's stored parents already occur among the identifiers seen so
far. -/
def parentsBeforeAux (ops : List (String × Operation)) :
    List String → List Operation → Prop
  | _, [] => True
  | seen, o :: rest =>
    (∀ p ∈ o.parents, (lookupA ops p).isSome = true → p ∈ seen) ∧
    parentsBeforeAux ops (seen ++ [o.id]) rest

/-- Parents-before-children: every element of the history is preceded by all
of its stored parents. -/
def parentsBefore (ops : List (String × Operation)) (h : List Operation) : Prop :=
  parentsBeforeAux ops [] h

/-- Invariant of the traversal accumulator: the history holds stored
operations under their own identifiers, lists no identifier twice, mentions
only visited identifiers, and is parents-before-children. -/
def dfsInv (ops : List (String × Operation)) (v : List String)
    (h : List Operation) : Prop :=
  (∀ o ∈ h, lookupA ops o.id = some o) ∧
  (opIds h).Nodup ∧
  (∀ i ∈ opIds h, i ∈ v) ∧
  parentsBefore ops h

/-- A grey identifier of the traversal: visited and stored but not yet
appended to the history (its traversal frame is still open). -/
def graySet (ops : List (String × Operation)) (v : List String)
    (h : List Operation) (g : String) : Prop :=
  g ∈ v ∧ (lookupA ops g).isSome = true ∧ g ∉ opIds h

/-- Postcondition of one traversal call: the visited set grows, the history
grows by appending, the invariant is maintained, and the set of grey
identifiers is exactly preserved. -/
def dfsPost (ops : List (String × Operation)) (v : List String)
    (h : List Operation) (r : List String × List Operation) : Prop :=
  (∀ x ∈ v, x ∈ r.1) ∧
  (∃ d, r.2 = h ++ d) ∧
  dfsInv ops r.1 r.2 ∧
  (∀ g, graySet ops r.1 r.2 g ↔ graySet ops v h g)

/-- Acyclicity of the stored parent relation — the defining property of a
DAG (operation identifiers are content hashes, so cycles cannot arise in the
running system). -/
def acyclic (ops : List (String × Operation)) : Prop :=
  ∀ x, ¬ Relation.TransGen (opStep ops) x x

/-- Key consistency: every stored pair maps an identifier to the operation
carrying it, as `AddOperation` guarantees by construction. -/
def keysConsistent (ops : List (String × Operation)) : Prop :=
  ∀ p ∈ ops, (p.2 : Operation).id = p.1

/-- All parents of an operation are already stored in the DAG. -/
def parentsStoredB (dag : OperationDAG) (op : Operation) : Bool :=
  op.parents.all (fun p => (lookupA dag.operations p).isSome)

/-- Causal insertion order: every operation of the list is added only after
all of its parents are present. -/
def inOrderB : OperationDAG → List Operation → Bool
  | _, [] => true
  | dag, op :: rest => parentsStoredB dag op && inOrderB (addOperation dag op).1 rest

/-- Left fold of `addOperation` over a list of operations. -/
def addAll (dag : OperationDAG) (l : List Operation) : OperationDAG :=
  l.foldl (fun d op => (addOperation d op).1) dag

/-- The diamond DAG built by adding the four sample operations in causal
order. -/
def sampleDAG : OperationDAG :=
  addAll newOperationDAG [sampleO1, sampleO2, sampleO3, sampleO4]

/-- Head-set invariant claimed by the specification: the heads are exactly
the stored operations without recorded children. -/
def headsExact (dag : OperationDAG) : Prop :=
  ∀ k, k ∈ dag.heads ↔ ((lookupA dag.operations k).isSome ∧ childrenOf dag k = [])

/-- One externally visible document mutation. -/
inductive DocMutation where
  | applyOp (op : Operation)
  | insertC (c : Construct)
  | deleteC (pos : LogootPosition)

/-- Effect of a mutation on the in-memory document: failed calls leave the
document as it was (the Go methods return before mutating on every error
path). -/
def applyMutation (doc : Document) (m : DocMutation) : Document :=
  match m with
  | .applyOp op =>
    match doc.applyOperation op with
    | .ok d => d
    | .error _ => doc
  | .insertC c =>
    match doc.insertConstruct c with
    | .ok d => d
    | .error _ => doc
  | .deleteC pos =>
    match doc.deleteConstruct pos with
    | .ok p => p.1
    | .error _ => doc

/-- A finite sequence of document mutations. -/
def applyMutations (doc : Document) (ms : List DocMutation) : Document :=
  ms.foldl applyMutation doc

/-- Hash/render agreement: the stored content hash is the SHA-256 of the
rendered content. -/
abbrev hashRenderOk (doc : Document) : Prop :=
  doc.contentHash = sha256 (strBytes (renderString doc))

/-- Structural well-formedness of a DAG maintained by in-causal-order
insertion: stored keys match the operations' own identifiers and are
duplicate-free, the head list is duplicate-free, the head set is exactly the
stored operations without recorded children, and children are recorded only
for stored operations. -/
def dagInv (dag : OperationDAG) : Prop :=
  keysConsistent dag.operations ∧
  (dag.operations.map Prod.fst).Nodup ∧
  dag.heads.Nodup ∧
  headsExact dag ∧
  (∀ k, childrenOf dag k ≠ [] → (lookupA dag.operations k).isSome = true)

/-! Shared helper lemmas. -/

theorem lookupA_insertA {α β : Type} [DecidableEq α] (l : List (α × β))
    (k k' : α) (v : β) :
    lookupA (insertA l k v) k' = if k = k' then some v else lookupA l k' := by
  induction l with
  | nil => simp [insertA, lookupA]
  | cons p t ih =>
    obtain ⟨a, b⟩ := p
    by_cases hak : a = k
    · subst hak
      by_cases hk' : a = k' <;> simp [insertA, lookupA, hk']
    · by_cases hk' : a = k'
      · subst hk'
        simp [insertA, lookupA, hak, Ne.symm hak]
      · simp [insertA, lookupA, hak, hk', ih]

theorem lookupA_eq_none_iff {α β : Type} [DecidableEq α] (l : List (α × β))
    (k : α) : lookupA l k = none ↔ k ∉ l.map Prod.fst := by
  induction l with
  | nil => simp [lookupA]
  | cons p t ih =>
    obtain ⟨a, b⟩ := p
    by_cases hak : a = k
    · subst hak
      simp [lookupA]
    · simp [lookupA, hak, ih, Ne.symm hak]

theorem insertA_of_fresh {α β : Type} [DecidableEq α] {l : List (α × β)}
    {k : α} (v : β) (h : lookupA l k = none) : insertA l k v = l ++ [(k, v)] := by
  induction l with
  | nil => simp [insertA]
  | cons p t ih =>
    obtain ⟨a, b⟩ := p
    by_cases hak : a = k
    · subst hak
      simp [lookupA] at h
    · simp [lookupA, hak] at h
      simp [insertA, hak, ih h]

theorem intCmp_self (a : Int) : intCmp a a = .eq := by
  simp [intCmp]

theorem intCmp_lt_of {a b : Int} (h : a < b) : intCmp a b = .lt := by
  simp [intCmp, h]

theorem intCmp_cases (a b : Int) :
    (intCmp a b = .lt ∧ a < b) ∨ (intCmp a b = .eq ∧ a = b) ∨
    (intCmp a b = .gt ∧ b < a) := by
  unfold intCmp
  rcases lt_trichotomy a b with h | h | h
  · exact Or.inl ⟨by simp [h], h⟩
  · exact Or.inr (Or.inl ⟨by simp [h], h⟩)
  · exact Or.inr (Or.inr ⟨by simp [h, not_lt_of_gt h], h⟩)

theorem bytesCmp_self (a : List Nat) : bytesCmp a a = .eq := by
  induction a with
  | nil => rfl
  | cons x xs ih => simp [bytesCmp, ih]

/-- A valid position has a non-empty segment list. -/
theorem segments_ne_nil_of_isValid {p : LogootPosition}
    (h : p.isValid = true) : p.segments ≠ [] := by
  intro hnil
  simp [LogootPosition.isValid, hnil] at h

theorem isValid_single {v : Int} {a : AuthorID} (ha : a ≠ []) :
    (⟨[⟨v, a⟩]⟩ : LogootPosition).isValid = true := by
  simp [LogootPosition.isValid, List.isEmpty_iff, ha]

/-! Claim C1: bounds of `GeneratePosition`. -/

/-- C1 counterexample: for the valid positions `L = [(1,a),(5,a)]` and
`R = [(2,a)]` with `L < R`, the generated position `[(1,a),(1,b)]` is
strictly LESS than `L`, contradicting the claimed `L < generate(L,R,b)`. -/
theorem c1_counterexample :
    (⟨[⟨1, [97]⟩, ⟨5, [97]⟩]⟩ : LogootPosition).isValid = true ∧
    (⟨[⟨2, [97]⟩]⟩ : LogootPosition).isValid = true ∧
    (⟨[⟨1, [97]⟩, ⟨5, [97]⟩]⟩ : LogootPosition).compare ⟨[⟨2, [97]⟩]⟩ =
      Ordering.lt ∧
    (GeneratePosition ⟨[⟨1, [97]⟩, ⟨5, [97]⟩]⟩ ⟨[⟨2, [97]⟩]⟩ [98]).compare
      ⟨[⟨1, [97]⟩, ⟨5, [97]⟩]⟩ = Ordering.lt := by
  decide

theorem gen_single_between (lv rv : Int) (la ra a : AuthorID)
    (hla : la ≠ []) (hra : ra ≠ [])
    (hlt : (⟨[⟨lv, la⟩]⟩ : LogootPosition).compare ⟨[⟨rv, ra⟩]⟩ = .lt) :
    (⟨[⟨lv, la⟩]⟩ : LogootPosition).compare
      (GeneratePosition ⟨[⟨lv, la⟩]⟩ ⟨[⟨rv, ra⟩]⟩ a) = .lt ∧
    (GeneratePosition ⟨[⟨lv, la⟩]⟩ ⟨[⟨rv, ra⟩]⟩ a).compare
      ⟨[⟨rv, ra⟩]⟩ = .lt := by
  have hLv := isValid_single (v := lv) hla
  have hRv := isValid_single (v := rv) hra
  unfold GeneratePosition
  simp only [hLv, hRv, not_true, false_and, and_false, if_false, not_false_iff,
    if_neg, ite_false]
  rcases intCmp_cases lv rv with ⟨hc, hv⟩ | ⟨hc, hv⟩ | ⟨hc, hv⟩
  · -- first segment values differ, lv < rv
    have hne : ¬ (lv = rv ∧ la = ra) := by
      rintro ⟨h, -⟩; omega
    by_cases hd : (1 : Int) < rv - lv
    · have h1 : (1 : Int) ≤ (rv - lv) / 2 := by omega
      have h2 : (rv - lv) / 2 < rv - lv := by omega
      constructor
      · simp [generatePositionBetween, commonPrefixLen, hne, segAt, hd,
          LogootPosition.compare, segListCmp, intCmp_lt_of (by omega : lv < lv + (rv - lv) / 2)]
      · simp [generatePositionBetween, commonPrefixLen, hne, segAt, hd,
          LogootPosition.compare, segListCmp, intCmp_lt_of (by omega : lv + (rv - lv) / 2 < rv)]
    · constructor
      · simp [generatePositionBetween, commonPrefixLen, hne, segAt, hd,
          LogootPosition.compare, segListCmp, intCmp_self, bytesCmp_self]
      · simp [generatePositionBetween, commonPrefixLen, hne, segAt, hd,
          LogootPosition.compare, segListCmp, hc]
  · -- equal first values: the authors must differ, with la before ra
    have hab : bytesCmp la ra = .lt := by
      unfold LogootPosition.compare segListCmp at hlt
      rw [hc] at hlt
      rcases h : bytesCmp la ra <;> rw [h] at hlt <;> simp_all [segListCmp]
    have hne : ¬ (lv = rv ∧ la = ra) := by
      rintro ⟨-, h⟩
      rw [h, bytesCmp_self] at hab
      exact absurd hab (by simp)
    have hd : ¬ (1 : Int) < rv - lv := by omega
    constructor
    · simp [generatePositionBetween, commonPrefixLen, hne, segAt, hd,
        LogootPosition.compare, segListCmp, intCmp_self, bytesCmp_self]
    · simp [generatePositionBetween, commonPrefixLen, hne, segAt, hd,
        LogootPosition.compare, segListCmp, hc, hab]
  · -- lv > rv contradicts L < R
    unfold LogootPosition.compare segListCmp at hlt
    rw [hc] at hlt
    simp at hlt

theorem gen_right_invalid (left right : LogootPosition) (a : AuthorID)
    (hl : left.isValid = true) (hr : right.isValid = false) :
    left.compare (GeneratePosition left right a) = .lt := by
  obtain ⟨s, rest, hseg⟩ : ∃ s rest, left.segments = s :: rest := by
    cases h : left.segments with
    | nil => exact absurd h (segments_ne_nil_of_isValid hl)
    | cons s rest => exact ⟨s, rest, rfl⟩
  unfold GeneratePosition
  simp only [hl, hr, not_true, false_and, if_false, not_false_iff, if_true,
    ite_false, ite_true]
  unfold LogootPosition.compare LogootPosition.firstValue
  rw [hseg]
  simp [segListCmp, intCmp_lt_of (by omega : s.value < s.value + 1)]

theorem gen_left_invalid (left right : LogootPosition) (a : AuthorID)
    (hl : left.isValid = false) (hr : right.isValid = true)
    (h1 : 1 ≤ right.firstValue) :
    (GeneratePosition left right a).compare right = .lt := by
  obtain ⟨t, ts, hseg⟩ : ∃ t ts, right.segments = t :: ts := by
    cases h : right.segments with
    | nil => exact absurd h (segments_ne_nil_of_isValid hr)
    | cons t ts => exact ⟨t, ts, rfl⟩
  have hfv : right.firstValue = t.value := by
    unfold LogootPosition.firstValue; rw [hseg]
  unfold GeneratePosition
  simp only [hl, hr, not_true, and_false, false_and, and_true, if_false,
    not_false_iff, if_true, ite_false, ite_true]
  by_cases hv : right.firstValue - 1 ≤ 0
  · simp only [hv, ite_true]
    unfold LogootPosition.compare
    rw [hseg]
    simp [segListCmp, intCmp_lt_of (by omega : (0 : Int) < t.value)]
  · simp only [hv, ite_false]
    unfold LogootPosition.compare
    rw [hseg]
    simp [segListCmp, intCmp_lt_of (by omega : right.firstValue - 1 < t.value)]

/-- C1 (amended): for valid single-segment positions `L < R` the generated
position lies strictly between them; with only a valid left present the
result is strictly greater than the left; with only a valid right present
whose first segment value is at least 1, the result is strictly less than the
right. (The unamended claim fails for multi-segment inputs, see the
counterexample.) -/
theorem c1_amended :
    (∀ (lv rv : Int) (la ra a : AuthorID), la ≠ [] → ra ≠ [] →
      (⟨[⟨lv, la⟩]⟩ : LogootPosition).compare ⟨[⟨rv, ra⟩]⟩ = .lt →
      (⟨[⟨lv, la⟩]⟩ : LogootPosition).compare
        (GeneratePosition ⟨[⟨lv, la⟩]⟩ ⟨[⟨rv, ra⟩]⟩ a) = .lt ∧
      (GeneratePosition ⟨[⟨lv, la⟩]⟩ ⟨[⟨rv, ra⟩]⟩ a).compare
        ⟨[⟨rv, ra⟩]⟩ = .lt) ∧
    (∀ (left right : LogootPosition) (a : AuthorID),
      left.isValid = true → right.isValid = false →
      left.compare (GeneratePosition left right a) = .lt) ∧
    (∀ (left right : LogootPosition) (a : AuthorID),
      left.isValid = false → right.isValid = true → 1 ≤ right.firstValue →
      (GeneratePosition left right a).compare right = .lt) :=
  ⟨fun lv rv la ra a hla hra hlt => gen_single_between lv rv la ra a hla hra hlt,
   fun left right a hl hr => gen_right_invalid left right a hl hr,
   fun left right a hl hr h1 => gen_left_invalid left right a hl hr h1⟩

/-- C1 witness: the amended theorem applied to `L = [(1,a)]`, `R = [(9,a)]`
and author `b`. -/
theorem c1_amended_witness :
    (⟨[⟨1, [97]⟩]⟩ : LogootPosition).compare
      (GeneratePosition ⟨[⟨1, [97]⟩]⟩ ⟨[⟨9, [97]⟩]⟩ [98]) = .lt ∧
    (GeneratePosition ⟨[⟨1, [97]⟩]⟩ ⟨[⟨9, [97]⟩]⟩ [98]).compare
      ⟨[⟨9, [97]⟩]⟩ = .lt :=
  c1_amended.1 1 9 [97] [97] [98] (by decide) (by decide) (by decide)

/-! Claim C2: injectivity of the derived position key. -/

/-- C2: the byte string fed to the position hash is NOT injective in the
segment sequence, so even treating the hash as injective, distinct valid
positions collide. The two-segment sequence `[(1,"a"),(1,"a")]` and the
one-segment sequence `[(1,"a\x01a")]` serialize to the same bytes
`[1,97,1,97]` (no separators, no length headers); likewise `[(1,"a")]` and
`[(-1,"a")]` collide because `big.Int.Bytes` drops the sign. -/
theorem c2_serialization_collision :
    ([⟨1, [97]⟩, ⟨1, [97]⟩] : List PositionSegment) ≠ [⟨1, [97, 1, 97]⟩] ∧
    serializeSegments [⟨1, [97]⟩, ⟨1, [97]⟩] =
      serializeSegments [⟨1, [97, 1, 97]⟩] ∧
    positionKey ⟨[⟨1, [97]⟩, ⟨1, [97]⟩]⟩ = positionKey ⟨[⟨1, [97, 1, 97]⟩]⟩ ∧
    (⟨[⟨1, [97]⟩, ⟨1, [97]⟩]⟩ : LogootPosition).isValid = true ∧
    (⟨[⟨1, [97, 1, 97]⟩]⟩ : LogootPosition).isValid = true ∧
    ([⟨1, [97]⟩] : List PositionSegment) ≠ [⟨-1, [97]⟩] ∧
    serializeSegments [⟨1, [97]⟩] = serializeSegments [⟨-1, [97]⟩] := by
  decide

/-! Claim C3: application of move operations. -/

/-- C3 counterexample: applying a concrete move operation is rejected as
unsupported, not treated as an insert. -/
theorem c3_counterexample :
    (newDocument "f.go").applyOperation
      ⟨"m1", "move", ⟨[⟨1, [97]⟩]⟩, "hello", "text", 0, [97], 0, [],
        ⟨"", "", []⟩⟩ = .error .unsupportedOperation := by
  decide

/-- C3 (amended): `ApplyOperation` dispatches only insert and delete; every
move operation falls to the default branch and is rejected with the
unsupported-operation error, before any mutation of the document. -/
theorem c3_amended (doc : Document) (op : Operation) (h : op.type = "move") :
    doc.applyOperation op = .error .unsupportedOperation := by
  simp [Document.applyOperation, h]

/-- C3 witness: the amended theorem applied to a concrete document and move
operation. -/
theorem c3_amended_witness :
    (newDocument "w.go").applyOperation
      ⟨"m2", "move", ⟨[⟨2, [98]⟩]⟩, "x", "text", 0, [98], 0, [],
        ⟨"", "", []⟩⟩ = .error .unsupportedOperation :=
  c3_amended (newDocument "w.go") _ rfl

/-! Claim C5: validation at DAG insertion. -/

/-- C5 counterexample: `AddOperation` itself performs no validation — adding
an operation with an empty author and an unknown kind returns no error and
mutates the operation map. -/
theorem c5_counterexample :
    (addOperation newOperationDAG
      ⟨"x1", "bogus", ⟨[]⟩, "", "", 0, [], 0, [], ⟨"", "", []⟩⟩).2 = none ∧
    (addOperation newOperationDAG
      ⟨"x1", "bogus", ⟨[]⟩, "", "", 0, [], 0, [], ⟨"", "", []⟩⟩).1.operations =
      [("x1", ⟨"x1", "bogus", ⟨[]⟩, "", "", 0, [], 0, [], ⟨"", "", []⟩⟩)] := by
  decide

/-- C5 (amended): the rejection of nil operations, empty authors and unknown
kinds is performed by the separate `ValidateOperation` (which the engine calls
before inserting) and mutates nothing; `AddOperation` itself never returns an
error. -/
theorem c5_amended :
    (validateOperation none = .error .invalidOperation) ∧
    (∀ op : Operation, op.author = [] →
      validateOperation (some op) = .error .invalidAuthor) ∧
    (∀ op : Operation, op.author ≠ [] → op.type ≠ "insert" →
      op.type ≠ "delete" → op.type ≠ "move" →
      validateOperation (some op) = .error .invalidOperationType) ∧
    (∀ (dag : OperationDAG) (op : Operation), (addOperation dag op).2 = none) := by
  refine ⟨rfl, ?_, ?_, ?_⟩
  · intro op h
    simp [validateOperation, h]
  · intro op ha h1 h2 h3
    simp [validateOperation, ha, h1, h2, h3]
  · intro dag op
    unfold addOperation
    split <;> rfl

/-- C5 witness: the amended theorem applied to concrete operations. -/
theorem c5_amended_witness :
    validateOperation (some ⟨"x1", "insert", ⟨[]⟩, "", "", 0, [], 0, [],
      ⟨"", "", []⟩⟩) = .error .invalidAuthor ∧
    validateOperation (some ⟨"x2", "bogus", ⟨[]⟩, "", "", 0, [97], 0, [],
      ⟨"", "", []⟩⟩) = .error .invalidOperationType ∧
    (addOperation newOperationDAG ⟨"x3", "insert", ⟨[]⟩, "", "", 0, [97], 0,
      [], ⟨"", "", []⟩⟩).2 = none :=
  ⟨c5_amended.2.1 _ rfl,
   c5_amended.2.2.1 _ (by decide) (by decide) (by decide) (by decide),
   c5_amended.2.2.2 _ _⟩

/-! Claim C4: the engine's handling of a missing document identifier. -/

/-- C4 counterexample: an operation without a `document_id` context entry but
with a non-empty session identifier is NOT rejected — the engine falls back
to the document `"default"` and applies it there (version 1 afterwards). -/
theorem c4_counterexample :
    (engineProcessOperation newEngineState
      ⟨"e1", "insert", ⟨[⟨1, [97]⟩]⟩, "hello", "text", 0, [97], 0, [],
        ⟨"s1", "", []⟩⟩).2 = none ∧
    ((lookupA (engineProcessOperation newEngineState
      ⟨"e1", "insert", ⟨[⟨1, [97]⟩]⟩, "hello", "text", 0, [97], 0, [],
        ⟨"s1", "", []⟩⟩).1.documents "default").getD
          (newDocument "default")).version = 1 := by
  decide

/-- C4 (amended): when `metadata.context["document_id"]` is empty, the engine
rejects with the missing-document_id error — leaving every document untouched
though the DAG and resolver have already been updated — only when the session
identifier is also empty; with a non-empty session identifier it instead
falls back to applying the operation to the document named `"default"`. -/
theorem c4_amended (st : EngineState) (op : Operation)
    (hdoc : contextGet op.metadata.context "document_id" = "")
    (hval : validateOperation (some op) = .ok ()) :
    (op.metadata.sessionID = "" →
      engineProcessOperation st op =
        ({ st with
            dag := (addOperation st.dag op).1,
            resolver := processOperationR st.resolver op },
         some EngineError.missingDocumentID)) ∧
    (op.metadata.sessionID ≠ "" →
      engineProcessOperation st op =
        engineApplyToDocument
          { st with
            dag := (addOperation st.dag op).1,
            resolver := processOperationR st.resolver op } op "default") := by
  constructor <;> intro hs <;> simp [engineProcessOperation, hval, hdoc, hs]

/-- C4 witness: the amended theorem applied to a concrete engine state and
operation with empty session identifier — the missing-document_id rejection
leaves the documents map untouched. -/
theorem c4_amended_witness :
    engineProcessOperation newEngineState
      ⟨"e2", "insert", ⟨[⟨1, [97]⟩]⟩, "h", "text", 0, [97], 0, [],
        ⟨"", "", []⟩⟩ =
      ({ newEngineState with
          dag := (addOperation newEngineState.dag
            ⟨"e2", "insert", ⟨[⟨1, [97]⟩]⟩, "h", "text", 0, [97], 0, [],
              ⟨"", "", []⟩⟩).1,
          resolver := processOperationR newEngineState.resolver
            ⟨"e2", "insert", ⟨[⟨1, [97]⟩]⟩, "h", "text", 0, [97], 0, [],
              ⟨"", "", []⟩⟩ },
       some EngineError.missingDocumentID) :=
  (c4_amended newEngineState
    ⟨"e2", "insert", ⟨[⟨1, [97]⟩]⟩, "h", "text", 0, [97], 0, [],
      ⟨"", "", []⟩⟩ rfl rfl).1 rfl

/-! Claim C8: hash/render agreement. -/

/-- Rendering ignores the stored content hash, so refreshing the hash leaves
the rendering unchanged, and the refreshed document satisfies hash/render
agreement by construction. -/
theorem hashOk_update (d : Document) : hashRenderOk (updateContentHash d) := rfl

theorem applyOperation_ok_shape (doc : Document) (op : Operation) (d : Document)
    (h : doc.applyOperation op = .ok d) :
    d = doc ∨ ∃ d', d = updateContentHash d' := by
  unfold Document.applyOperation at h
  by_cases h1 : op.type = "insert"
  · rw [if_pos h1] at h
    unfold Document.applyInsert at h
    dsimp only at h
    split at h
    · exact Except.noConfusion h
    · cases h
      exact Or.inr ⟨_, rfl⟩
  · rw [if_neg h1] at h
    by_cases h2 : op.type = "delete"
    · rw [if_pos h2] at h
      unfold Document.applyDelete at h
      dsimp only at h
      split at h
      · cases h
        exact Or.inl rfl
      · cases h
        exact Or.inr ⟨_, rfl⟩
    · rw [if_neg h2] at h
      exact Except.noConfusion h

theorem insertConstruct_ok_shape (doc : Document) (c : Construct) (d : Document)
    (h : doc.insertConstruct c = .ok d) : ∃ d', d = updateContentHash d' := by
  unfold Document.insertConstruct at h
  dsimp only at h
  split at h
  · exact Except.noConfusion h
  · split at h
    · exact Except.noConfusion h
    · cases h
      exact ⟨_, rfl⟩

theorem deleteConstruct_ok_shape (doc : Document) (pos : LogootPosition)
    (pr : Document × Construct) (h : doc.deleteConstruct pos = .ok pr) :
    ∃ d', pr.1 = updateContentHash d' := by
  unfold Document.deleteConstruct at h
  dsimp only at h
  split at h
  · exact Except.noConfusion h
  · cases h
    exact ⟨_, rfl⟩

/-- Every single mutation preserves hash/render agreement: failed calls leave
the document untouched and successful state changes re-establish the
agreement by recomputing the hash from the new rendering. -/
theorem applyMutation_hashOk (doc : Document) (m : DocMutation)
    (h : hashRenderOk doc) : hashRenderOk (applyMutation doc m) := by
  cases m with
  | applyOp op =>
    simp only [applyMutation]
    cases hres : doc.applyOperation op with
    | error e => exact h
    | ok d =>
      rcases applyOperation_ok_shape doc op d hres with rfl | ⟨d', rfl⟩
      · exact h
      · exact hashOk_update d'
  | insertC c =>
    simp only [applyMutation]
    cases hres : doc.insertConstruct c with
    | error e => exact h
    | ok d =>
      rcases insertConstruct_ok_shape doc c d hres with ⟨d', rfl⟩
      exact hashOk_update d'
  | deleteC pos =>
    simp only [applyMutation]
    cases hres : doc.deleteConstruct pos with
    | error e => exact h
    | ok pr =>
      rcases deleteConstruct_ok_shape doc pos pr hres with ⟨d', hd⟩
      show hashRenderOk pr.1
      rw [hd]
      exact hashOk_update d'

/-- C8 counterexample: a freshly created document stores the all-zero hash,
which is not the SHA-256 of its (empty) rendering — and a sequence consisting
of one no-op delete leaves it that way, so the stored hash fails to equal the
hash of the render output after that mutation sequence. -/
theorem c8_counterexample :
    (newDocument "f.go").contentHash ≠
      sha256 (strBytes (renderString (newDocument "f.go"))) ∧
    applyMutations (newDocument "f.go") [DocMutation.deleteC ⟨[⟨1, [97]⟩]⟩] =
      newDocument "f.go" := by
  decide

/-- C8 (amended): hash/render agreement is an invariant: once the stored
content hash equals the SHA-256 of the render output — which every successful
state-changing mutation establishes by recomputing it, as the second conjunct
records for inserts — it still does after every further finite sequence of
mutations. A freshly created document does not yet satisfy it (its hash is
the `[32]byte` zero value, not the hash of the empty rendering). -/
theorem c8_amended :
    (∀ (doc : Document) (ms : List DocMutation),
      hashRenderOk doc → hashRenderOk (applyMutations doc ms)) ∧
    (∀ (doc : Document) (c : Construct) (d : Document),
      doc.insertConstruct c = .ok d → hashRenderOk d) := by
  constructor
  · intro doc ms h
    induction ms generalizing doc with
    | nil => exact h
    | cons m rest ih => exact ih _ (applyMutation_hashOk doc m h)
  · intro doc c d h
    rcases insertConstruct_ok_shape doc c d h with ⟨d', rfl⟩
    exact hashOk_update d'

/-- C8 witness: the amended theorem applied to a concrete re-hashed document
and a concrete mutation sequence (an insert followed by a no-op delete). -/
theorem c8_amended_witness :
    hashRenderOk (updateContentHash (newDocument "w.go")) ∧
    hashRenderOk (applyMutations (updateContentHash (newDocument "w.go"))
      [DocMutation.insertC ⟨"c1", "hello", .content, ⟨[⟨1, [97]⟩]⟩, "o1", "o1",
        ⟨"", [], [], []⟩⟩, DocMutation.deleteC ⟨[⟨9, [97]⟩]⟩]) :=
  ⟨hashOk_update (newDocument "w.go"),
   c8_amended.1 (updateContentHash (newDocument "w.go")) _
     (hashOk_update (newDocument "w.go"))⟩

/-! Claim C7: the head-set invariant of the DAG. -/

theorem removeFromHeads_spec (h : List String) (p : String) (hnd : h.Nodup) :
    (removeFromHeads h p).Nodup ∧
    (∀ x, x ∈ removeFromHeads h p ↔ x ∈ h ∧ x ≠ p) := by
  induction h with
  | nil => simp [removeFromHeads]
  | cons a t ih =>
    rcases List.nodup_cons.mp hnd with ⟨hat, hndt⟩
    by_cases hap : a = p
    · subst hap
      simp only [removeFromHeads, if_pos rfl]
      refine ⟨hndt, fun x => ⟨fun hx => ⟨List.mem_cons_of_mem _ hx,
        fun hxa => hat (hxa ▸ hx)⟩, ?_⟩⟩
      rintro ⟨hx, hxp⟩
      rcases List.mem_cons.mp hx with rfl | hx
      · exact absurd rfl hxp
      · exact hx
    · simp only [removeFromHeads, if_neg hap]
      obtain ⟨ih1, ih2⟩ := ih hndt
      refine ⟨List.nodup_cons.mpr ⟨fun hmem => hat ((ih2 a).mp hmem).1, ih1⟩,
        fun x => ⟨?_, ?_⟩⟩
      · intro hx
        rcases List.mem_cons.mp hx with rfl | hx
        · exact ⟨List.mem_cons_self _ _, hap⟩
        · obtain ⟨h1, h2⟩ := (ih2 x).mp hx
          exact ⟨List.mem_cons_of_mem _ h1, h2⟩
      · rintro ⟨hx, hxp⟩
        rcases List.mem_cons.mp hx with rfl | hx
        · exact List.mem_cons_self _ _
        · exact List.mem_cons_of_mem _ ((ih2 x).mpr ⟨hx, hxp⟩)

theorem foldl_removeFromHeads_spec (ps : List String) (h : List String)
    (hnd : h.Nodup) :
    (ps.foldl removeFromHeads h).Nodup ∧
    (∀ x, x ∈ ps.foldl removeFromHeads h ↔ x ∈ h ∧ x ∉ ps) := by
  induction ps generalizing h with
  | nil => simp [hnd]
  | cons p pt ih =>
    obtain ⟨h1, h2⟩ := removeFromHeads_spec h p hnd
    obtain ⟨g1, g2⟩ := ih (removeFromHeads h p) h1
    refine ⟨g1, fun x => ?_⟩
    rw [List.foldl_cons, g2 x, h2 x]
    constructor
    · rintro ⟨⟨hx, hxp⟩, hxpt⟩
      exact ⟨hx, by simp [hxp, hxpt]⟩
    · rintro ⟨hx, hnp⟩
      simp only [List.mem_cons, not_or] at hnp
      exact ⟨⟨hx, hnp.1⟩, hnp.2⟩

theorem foldl_addParentEdge_operations (cid : String) (ps : List String)
    (d : OperationDAG) :
    (ps.foldl (addParentEdge cid) d).operations = d.operations := by
  induction ps generalizing d with
  | nil => rfl
  | cons p pt ih => rw [List.foldl_cons, ih]; rfl

theorem foldl_addParentEdge_heads (cid : String) (ps : List String)
    (d : OperationDAG) :
    (ps.foldl (addParentEdge cid) d).heads = ps.foldl removeFromHeads d.heads := by
  induction ps generalizing d with
  | nil => rfl
  | cons p pt ih => rw [List.foldl_cons, ih]; rfl

theorem childrenOf_addParentEdge (cid : String) (d : OperationDAG)
    (p k : String) :
    childrenOf (addParentEdge cid d p) k =
      if p = k then childrenOf d p ++ [cid] else childrenOf d k := by
  unfold childrenOf addParentEdge
  rw [lookupA_insertA]
  by_cases hpk : p = k <;> simp [hpk]

theorem foldl_addParentEdge_children (cid : String) (ps : List String)
    (d : OperationDAG) (k : String) :
    childrenOf (ps.foldl (addParentEdge cid) d) k = [] ↔
      (childrenOf d k = [] ∧ k ∉ ps) := by
  induction ps generalizing d with
  | nil => simp
  | cons p pt ih =>
    rw [List.foldl_cons, ih, childrenOf_addParentEdge]
    by_cases hpk : p = k
    · subst hpk
      simp
    · simp [hpk, Ne.symm hpk]

/-- Head preservation of `AddOperation` under causal order: adding an
operation whose parents are all already stored preserves the structural DAG
invariant, in particular `headsExact`. -/
theorem addOperation_dagInv (dag : OperationDAG) (op : Operation)
    (hpar : parentsStoredB dag op = true) (hinv : dagInv dag) :
    dagInv (addOperation dag op).1 := by
  obtain ⟨hW1, hW2, hW3, hW4, hW5⟩ := hinv
  by_cases hex : (lookupA dag.operations op.id).isSome = true
  · unfold addOperation
    rw [if_pos hex]
    exact ⟨hW1, hW2, hW3, hW4, hW5⟩
  · have hfresh : lookupA dag.operations op.id = none := by
      cases h : lookupA dag.operations op.id with
      | none => rfl
      | some v => rw [h] at hex; simp at hex
    have hopsEq : insertA dag.operations op.id op =
        dag.operations ++ [(op.id, op)] := insertA_of_fresh op hfresh
    have hidNotKey : op.id ∉ dag.operations.map Prod.fst :=
      (lookupA_eq_none_iff _ _).mp hfresh
    have hW1' : keysConsistent (insertA dag.operations op.id op) := by
      rw [hopsEq]
      intro q hq
      rcases List.mem_append.mp hq with hq | hq
      · exact hW1 q hq
      · rcases List.mem_singleton.mp hq with rfl
        rfl
    have hW2' : ((insertA dag.operations op.id op).map Prod.fst).Nodup := by
      rw [hopsEq, List.map_append]
      rw [List.nodup_append]
      exact ⟨hW2, List.nodup_singleton _, by simpa using hidNotKey⟩
    have hstored' : ∀ k, lookupA (insertA dag.operations op.id op) k =
        if op.id = k then some op else lookupA dag.operations k :=
      fun k => lookupA_insertA _ _ _ _
    have hchildNil : childrenOf dag op.id = [] := by
      by_contra hne
      have := hW5 op.id hne
      rw [hfresh] at this
      simp at this
    have hheadNotId : op.id ∉ dag.heads := by
      intro hmem
      have := ((hW4 op.id).mp hmem).1
      rw [hfresh] at this
      simp at this
    unfold addOperation
    rw [if_neg hex]
    dsimp only
    by_cases hps : op.parents.isEmpty
    · rw [if_pos hps]
      have hpsnil : op.parents = [] := List.isEmpty_iff.mp hps
      refine ⟨hW1', hW2', ?_, ?_, ?_⟩
      · dsimp only
        rw [List.nodup_append]
        exact ⟨hW3, List.nodup_singleton _, by simpa using hheadNotId⟩
      · intro k
        dsimp only [childrenOf]
        by_cases hk : op.id = k
        · subst hk
          rw [hstored']
          simp only [if_pos rfl]
          constructor
          · intro _
            exact ⟨by simp, hchildNil⟩
          · intro _
            simp
        · have hkmem : (k ∈ dag.heads ++ [op.id]) ↔ k ∈ dag.heads := by
            simp only [List.mem_append, List.mem_singleton]
            constructor
            · rintro (hm | rfl)
              · exact hm
              · exact absurd rfl hk
            · exact Or.inl
          rw [hkmem, hstored', if_neg hk]
          exact hW4 k
      · intro k hne
        rw [hstored']
        by_cases hk : op.id = k
        · simp [hk]
        · rw [if_neg hk]
          exact hW5 k hne
    · rw [if_neg hps]
      have hparAll : ∀ p ∈ op.parents, (lookupA dag.operations p).isSome = true := by
        intro p hp
        have := hpar
        unfold parentsStoredB at this
        exact List.all_eq_true.mp this p hp
      have hidNotPar : op.id ∉ op.parents := by
        intro hmem
        have := hparAll op.id hmem
        rw [hfresh] at this
        simp at this
      set dag1 : OperationDAG :=
        { dag with operations := insertA dag.operations op.id op } with hdag1
      have hd1heads : dag1.heads = dag.heads := rfl
      have hopsFold := foldl_addParentEdge_operations op.id op.parents dag1
      have hheadsFold := foldl_addParentEdge_heads op.id op.parents dag1
      have hchildFold := fun k => foldl_addParentEdge_children op.id op.parents dag1 k
      obtain ⟨hrem1, hrem2⟩ := foldl_removeFromHeads_spec op.parents dag.heads hW3
      have hchildD1 : ∀ k, childrenOf dag1 k = childrenOf dag k := fun k => rfl
      refine ⟨by rw [hopsFold]; exact hW1', by rw [hopsFold]; exact hW2', ?_, ?_, ?_⟩
      · dsimp only
        rw [List.nodup_append, hheadsFold, hd1heads]
        refine ⟨hrem1, List.nodup_singleton _, ?_⟩
        intro x hx hx2
        rcases List.mem_singleton.mp hx2 with rfl
        exact hheadNotId ((hrem2 op.id).mp hx).1
      · intro k
        dsimp only
        rw [hopsFold, hstored']
        by_cases hk : op.id = k
        · subst hk
          simp only [if_pos rfl]
          constructor
          · intro _
            exact ⟨by simp,
              (hchildFold op.id).mpr ⟨by rw [hchildD1]; exact hchildNil, hidNotPar⟩⟩
          · intro _
            simp
        · have hkmem : (k ∈ (op.parents.foldl (addParentEdge op.id) dag1).heads
              ++ [op.id]) ↔ k ∈ dag.heads ∧ k ∉ op.parents := by
            rw [hheadsFold, hd1heads]
            simp only [List.mem_append, List.mem_singleton]
            constructor
            · rintro (hm | rfl)
              · exact (hrem2 k).mp hm
              · exact absurd rfl hk
            · intro hm
              exact Or.inl ((hrem2 k).mpr hm)
          rw [hkmem, if_neg hk]
          constructor
          · rintro ⟨hh, hnp⟩
            have h4 := (hW4 k).mp hh
            exact ⟨h4.1, (hchildFold k).mpr ⟨by rw [hchildD1]; exact h4.2, hnp⟩⟩
          · rintro ⟨hs, hc⟩
            have hc' : childrenOf (op.parents.foldl (addParentEdge op.id) dag1) k = [] := hc
            obtain ⟨hc2, hnp⟩ := (hchildFold k).mp hc'
            rw [hchildD1] at hc2
            exact ⟨(hW4 k).mpr ⟨hs, hc2⟩, hnp⟩
      · intro k hne
        have hne' : childrenOf (op.parents.foldl (addParentEdge op.id) dag1) k ≠ [] := hne
        rw [hopsFold, hstored']
        by_cases hk : op.id = k
        · simp [hk]
        · rw [if_neg hk]
          have hne2 : ¬ (childrenOf dag1 k = [] ∧ k ∉ op.parents) :=
            fun hand => hne' ((hchildFold k).mpr hand)
          rcases Decidable.not_and_iff_or_not.mp hne2 with hc | hp
          · exact hW5 k (by rwa [hchildD1] at hc)
          · exact hparAll k (Decidable.not_not.mp hp)

theorem dagInv_new : dagInv newOperationDAG := by
  refine ⟨?_, ?_, ?_, ?_, ?_⟩
  · intro p hp
    simp [newOperationDAG] at hp
  · simp [newOperationDAG]
  · simp [newOperationDAG]
  · intro k
    simp [newOperationDAG, lookupA]
  · intro k hne
    simp [newOperationDAG, childrenOf, lookupA] at hne

theorem addAll_dagInv (l : List Operation) (dag : OperationDAG)
    (h : inOrderB dag l = true) (hinv : dagInv dag) : dagInv (addAll dag l) := by
  induction l generalizing dag with
  | nil => exact hinv
  | cons op rest ih =>
    unfold inOrderB at h
    simp only [Bool.and_eq_true] at h
    obtain ⟨h1, h2⟩ := h
    exact ih (addOperation dag op).1 h2 (addOperation_dagInv dag op h1 hinv)

/-- C7 counterexample: adding a child before its parent breaks the head-set
invariant — after adding `c` (parent `p`) and then `p`, the identifier `p`
has recorded children yet sits in the head list. -/
theorem c7_counterexample :
    ("p" ∈ (addAll newOperationDAG
      [⟨"c", "insert", ⟨[⟨1, [97]⟩]⟩, "x", "text", 0, [97], 0, ["p"], ⟨"", "", []⟩⟩,
       ⟨"p", "insert", ⟨[⟨1, [97]⟩]⟩, "y", "text", 0, [97], 0, [], ⟨"", "", []⟩⟩]).heads ∧
     childrenOf (addAll newOperationDAG
      [⟨"c", "insert", ⟨[⟨1, [97]⟩]⟩, "x", "text", 0, [97], 0, ["p"], ⟨"", "", []⟩⟩,
       ⟨"p", "insert", ⟨[⟨1, [97]⟩]⟩, "y", "text", 0, [97], 0, [], ⟨"", "", []⟩⟩]) "p" = ["c"]) ∧
    ¬ headsExact (addAll newOperationDAG
      [⟨"c", "insert", ⟨[⟨1, [97]⟩]⟩, "x", "text", 0, [97], 0, ["p"], ⟨"", "", []⟩⟩,
       ⟨"p", "insert", ⟨[⟨1, [97]⟩]⟩, "y", "text", 0, [97], 0, [], ⟨"", "", []⟩⟩]) := by
  refine ⟨by decide, ?_⟩
  intro h
  have := ((h "p").mp (by decide)).2
  have hc : childrenOf (addAll newOperationDAG
      [⟨"c", "insert", ⟨[⟨1, [97]⟩]⟩, "x", "text", 0, [97], 0, ["p"], ⟨"", "", []⟩⟩,
       ⟨"p", "insert", ⟨[⟨1, [97]⟩]⟩, "y", "text", 0, [97], 0, [], ⟨"", "", []⟩⟩]) "p" = ["c"] := by
    decide
  rw [hc] at this
  exact List.noConfusion this

/-- C7 (amended): after any finite sequence of `AddOperation` calls in which
every operation is added only after all of its parents are already present,
the head set equals exactly the set of stored operations without recorded
children. A child added before its parent violates the invariant at that
point, as the counterexample shows: the later-added parent is appended to
the heads despite having recorded children (only the insertion of a further
child naming that parent would remove it again), so the any-order clause of
the claim fails. -/
theorem c7_amended (l : List Operation)
    (h : inOrderB newOperationDAG l = true) :
    headsExact (addAll newOperationDAG l) :=
  (addAll_dagInv l newOperationDAG h dagInv_new).2.2.2.1

/-- C7 witness: the amended theorem applied to the concrete diamond
`o1 ← o2, o1 ← o3, {o2,o3} ← o4` added in causal order; the invariant then
holds, e.g. the sole head is `o4`. -/
theorem c7_amended_witness :
    inOrderB newOperationDAG
      [⟨"o1", "insert", ⟨[⟨1, [97]⟩]⟩, "a", "text", 0, [97], 0, [], ⟨"", "", []⟩⟩,
       ⟨"o2", "insert", ⟨[⟨2, [97]⟩]⟩, "b", "text", 0, [97], 0, ["o1"], ⟨"", "", []⟩⟩,
       ⟨"o3", "insert", ⟨[⟨3, [97]⟩]⟩, "c", "text", 0, [97], 0, ["o1"], ⟨"", "", []⟩⟩,
       ⟨"o4", "insert", ⟨[⟨4, [97]⟩]⟩, "d", "text", 0, [97], 0, ["o2", "o3"], ⟨"", "", []⟩⟩] = true ∧
    headsExact (addAll newOperationDAG
      [⟨"o1", "insert", ⟨[⟨1, [97]⟩]⟩, "a", "text", 0, [97], 0, [], ⟨"", "", []⟩⟩,
       ⟨"o2", "insert", ⟨[⟨2, [97]⟩]⟩, "b", "text", 0, [97], 0, ["o1"], ⟨"", "", []⟩⟩,
       ⟨"o3", "insert", ⟨[⟨3, [97]⟩]⟩, "c", "text", 0, [97], 0, ["o1"], ⟨"", "", []⟩⟩,
       ⟨"o4", "insert", ⟨[⟨4, [97]⟩]⟩, "d", "text", 0, [97], 0, ["o2", "o3"], ⟨"", "", []⟩⟩]) :=
  ⟨by decide, c7_amended _ (by decide)⟩

/-! Claim C9: delete processing invalidates addresses permanently. -/

theorem lookupA_mapValues {α β : Type} [DecidableEq α] (l : List (α × β))
    (g : β → β) (k : α) :
    lookupA (l.map (fun p => (p.1, g p.2))) k = (lookupA l k).map g := by
  induction l with
  | nil => simp [lookupA]
  | cons p t ih =>
    obtain ⟨a, b⟩ := p
    by_cases hak : a = k <;> simp [lookupA, hak, ih]

/-- Lookup after `ProcessOperation`: every entry is transformed in place by
the per-address transition when the operation affects it. -/
theorem lookupA_processOperationR (r : AddressResolver) (op : Operation)
    (k : AddressKey) :
    lookupA (processOperationR r op).addressIndex k =
      (lookupA r.addressIndex k).map (fun v =>
        if operationAffectsAddress op v then
          updateAddressForOperation r.constructIndex op v
        else v) := by
  unfold processOperationR
  dsimp only
  have hfun : (fun (p : AddressKey × ResolvedAddress) =>
      if operationAffectsAddress op p.2 then
        (p.1, updateAddressForOperation r.constructIndex op p.2)
      else p) =
    (fun (p : AddressKey × ResolvedAddress) =>
      (p.1, if operationAffectsAddress op p.2 then
        updateAddressForOperation r.constructIndex op p.2 else p.2)) := by
    funext p
    by_cases hc : operationAffectsAddress op p.2 <;> simp [hc]
  rw [hfun]
  exact lookupA_mapValues r.addressIndex (fun v =>
    if operationAffectsAddress op v then
      updateAddressForOperation r.constructIndex op v
    else v) k

/-- Effect of the per-address transition for a delete operation whose position
lies inside the current range: validity cleared, range emptied, one movement
record appended with reason delete and the operation as cause. -/
theorem updateAFO_delete (ci : List (List Nat × Construct)) (op : Operation)
    (v : ResolvedAddress) (hty : op.type = "delete")
    (hc : v.currentRange.contains op.position = true) :
    updateAddressForOperation ci op v =
      { v with
        isValid := false,
        movementHistory := v.movementHistory ++
          [⟨v.currentRange, emptyRange, op.id, MovementReason.delete⟩],
        currentRange := emptyRange,
        constructs := getConstructsInRangeR ci emptyRange } := by
  unfold updateAddressForOperation
  simp [hty, hc]

/-- The per-address transition never revalidates an address: an invalid
record stays invalid whatever operation is processed. -/
theorem updateAFO_keeps_invalid (ci : List (List Nat × Construct))
    (op : Operation) (v : ResolvedAddress) (h : v.isValid = false) :
    (updateAddressForOperation ci op v).isValid = false := by
  unfold updateAddressForOperation
  dsimp only
  split_ifs <;> simp [h]

theorem processOpR_keeps_invalid (r : AddressResolver) (op : Operation)
    (k : AddressKey) (v : ResolvedAddress)
    (hl : lookupA r.addressIndex k = some v) (hv : v.isValid = false) :
    ∃ v', lookupA (processOperationR r op).addressIndex k = some v' ∧
      v'.isValid = false := by
  rw [lookupA_processOperationR, hl]
  refine ⟨_, rfl, ?_⟩
  by_cases hc : operationAffectsAddress op v
  · simp only [hc, if_true]
    exact updateAFO_keeps_invalid _ _ _ hv
  · simp only [hc, if_false]
    exact hv

theorem foldl_processOpR_keeps_invalid (l : List Operation)
    (r : AddressResolver) (k : AddressKey) (v : ResolvedAddress)
    (hl : lookupA r.addressIndex k = some v) (hv : v.isValid = false) :
    ∃ v', lookupA ((l.foldl processOperationR r).addressIndex) k = some v' ∧
      v'.isValid = false := by
  induction l generalizing r v with
  | nil => exact ⟨v, hl, hv⟩
  | cons op rest ih =>
    obtain ⟨v', hl', hv'⟩ := processOpR_keeps_invalid r op k v hl hv
    exact ih (processOperationR r op) v' hl' hv'

/-- C9: processing a delete operation whose position lies inside a resolved
address's current range invalidates that address, appends as its final
movement record one with the current range as from-range, the empty range as
to-range, reason delete and the operation as cause — and the address remains
invalid under every further sequence of `ProcessOperation` calls. -/
theorem c9_delete_invalidates (r : AddressResolver) (op : Operation)
    (k : AddressKey) (res : ResolvedAddress)
    (hty : op.type = "delete")
    (hlk : lookupA r.addressIndex k = some res)
    (hc : res.currentRange.contains op.position = true) :
    lookupA (processOperationR r op).addressIndex k =
      some { res with
        isValid := false,
        movementHistory := res.movementHistory ++
          [⟨res.currentRange, emptyRange, op.id, MovementReason.delete⟩],
        currentRange := emptyRange,
        constructs := getConstructsInRangeR r.constructIndex emptyRange } ∧
    (∀ (l : List Operation) (res'' : ResolvedAddress),
      lookupA ((l.foldl processOperationR (processOperationR r op)).addressIndex)
        k = some res'' → res''.isValid = false) := by
  have haff : operationAffectsAddress op res = true := hc
  have hstep : lookupA (processOperationR r op).addressIndex k =
      some (updateAddressForOperation r.constructIndex op res) := by
    rw [lookupA_processOperationR, hlk]
    simp [haff]
  rw [updateAFO_delete r.constructIndex op res hty hc] at hstep
  refine ⟨hstep, ?_⟩
  intro l res'' hres''
  obtain ⟨v', hl', hv'⟩ := foldl_processOpR_keeps_invalid l
    (processOperationR r op) k _ hstep rfl
  rw [hl'] at hres''
  cases hres''
  exact hv'

/-- C9 witness: the theorem applied to the sample resolver, whose single
address is anchored exactly at the sample delete operation's position. -/
theorem c9_delete_invalidates_witness :
    lookupA (processOperationR sampleResolver1 sampleDelete1).addressIndex
      sampleAddress1.key =
      some { sampleResolved1 with
        isValid := false,
        movementHistory := sampleResolved1.movementHistory ++
          [⟨sampleResolved1.currentRange, emptyRange, sampleDelete1.id,
            MovementReason.delete⟩],
        currentRange := emptyRange,
        constructs := getConstructsInRangeR sampleResolver1.constructIndex
          emptyRange } ∧
    (∀ (l : List Operation) (res'' : ResolvedAddress),
      lookupA ((l.foldl processOperationR
        (processOperationR sampleResolver1 sampleDelete1)).addressIndex)
        sampleAddress1.key = some res'' → res''.isValid = false) :=
  c9_delete_invalidates sampleResolver1 sampleDelete1 sampleAddress1.key
    sampleResolved1 rfl (by decide) (by decide)

/-! Claim C10: address creation on an existing key. -/

/-- C10: `CreateAddress` with a key that already resolves does not fail — the
Go map write overwrites the record in place with a fresh one (empty movement
log, validity true, constructs recomputed from the range) — and no resolver
operation ever returns the declared address-already-exists error. -/
theorem c10_create_overwrites (r : AddressResolver) (repo creationOpID : String)
    (rng : PositionRange) (creationOp : Operation) (old : ResolvedAddress)
    (hop : lookupA r.operationIndex creationOpID = some creationOp)
    (_hold : lookupA r.addressIndex
      (newStableAddress repo creationOpID rng).key = some old) :
    (∃ r2 : AddressResolver, createAddress r repo creationOpID rng =
      .ok (newStableAddress repo creationOpID rng, r2)) ∧
    (∀ r2 : AddressResolver,
      createAddress r repo creationOpID rng =
        .ok (newStableAddress repo creationOpID rng, r2) →
      lookupA r2.addressIndex (newStableAddress repo creationOpID rng).key =
        some ⟨newStableAddress repo creationOpID rng, rng,
          getConstructsInRangeR r.constructIndex rng, creationOp, true, []⟩) ∧
    (∀ (r' : AddressResolver) (repo' oid' : String) (rng' : PositionRange),
      createAddress r' repo' oid' rng' ≠ .error .addressExists) ∧
    (∀ (r' : AddressResolver) (a : StableAddress),
      resolveAddress r' a ≠ .error .addressExists) ∧
    (∀ (r' : AddressResolver) (a : StableAddress) (nr : PositionRange)
      (cb : String) (rsn : MovementReason),
      updateAddressLocation r' a nr cb rsn ≠ .error .addressExists) ∧
    (∀ (r' : AddressResolver) (a : StableAddress) (fr tr : PositionRange)
      (cb : String) (rsn : MovementReason),
      trackMovement r' a fr tr cb rsn ≠ .error .addressExists) ∧
    (∀ (r' : AddressResolver) (a : StableAddress),
      getAddressHistory r' a ≠ .error .addressExists) ∧
    (∀ (r' : AddressResolver) (a : StableAddress) (rsn : MovementReason),
      invalidateAddress r' a rsn ≠ .error .addressExists) := by
  refine ⟨?_, ?_, ?_, ?_, ?_, ?_, ?_, ?_⟩
  · unfold createAddress
    rw [hop]
    exact ⟨_, rfl⟩
  · intro r2 h
    unfold createAddress at h
    rw [hop] at h
    cases h
    rw [lookupA_insertA]
    simp
  · intro r' repo' oid' rng' h
    unfold createAddress at h
    cases hm : lookupA r'.operationIndex oid' <;> rw [hm] at h <;> simp at h
  · intro r' a h
    unfold resolveAddress at h
    dsimp only at h
    cases hm : lookupA r'.addressIndex
        ((lookupA r'.forwardingTable a.key).getD a.key) <;>
      rw [hm] at h <;> simp at h
  · intro r' a nr cb rsn h
    unfold updateAddressLocation at h
    cases hm : lookupA r'.addressIndex a.key <;> rw [hm] at h <;> simp at h
  · intro r' a fr tr cb rsn h
    unfold trackMovement updateAddressLocation at h
    cases hm : lookupA r'.addressIndex a.key <;> rw [hm] at h <;> simp at h
  · intro r' a h
    unfold getAddressHistory at h
    cases hm : lookupA r'.addressIndex a.key <;> rw [hm] at h <;> simp at h
  · intro r' a rsn h
    unfold invalidateAddress at h
    cases hm : lookupA r'.addressIndex a.key <;> rw [hm] at h <;> simp at h

/-- C10 witness: creating an address in the sample resolver under the exact
key that already resolves succeeds (no address-exists error). -/
theorem c10_create_overwrites_witness :
    ∃ r2 : AddressResolver,
      createAddress sampleResolver1 "repo" "op1"
        ⟨⟨[⟨1, [97]⟩]⟩, ⟨[⟨1, [97]⟩]⟩⟩ =
        .ok (newStableAddress "repo" "op1" ⟨⟨[⟨1, [97]⟩]⟩, ⟨[⟨1, [97]⟩]⟩⟩, r2) :=
  (c10_create_overwrites sampleResolver1 "repo" "op1"
    ⟨⟨[⟨1, [97]⟩]⟩, ⟨[⟨1, [97]⟩]⟩⟩ sampleOp1 sampleResolved1
    (by decide) (by decide)).1

/-! Claim C6: the causal-history traversal. -/

theorem lookupA_mem {α β : Type} [DecidableEq α] {l : List (α × β)} {k : α}
    {v : β} (h : lookupA l k = some v) : (k, v) ∈ l := by
  induction l with
  | nil => simp [lookupA] at h
  | cons p t ih =>
    obtain ⟨a, b⟩ := p
    by_cases hak : a = k
    · subst hak
      have hbv : b = v := by simpa [lookupA] using h
      subst hbv
      exact List.mem_cons_self _ _
    · simp only [lookupA, if_neg hak] at h
      exact List.mem_cons_of_mem _ (ih h)

theorem keysConsistent_lookup {ops : List (String × Operation)}
    (hk : keysConsistent ops) {k : String} {o : Operation}
    (h : lookupA ops k = some o) : o.id = k :=
  hk (k, o) (lookupA_mem h)

theorem freshStored_mono (ops : List (String × Operation))
    {v v' : List String} (h : ∀ x ∈ v, x ∈ v') :
    freshStored ops v' ≤ freshStored ops v := by
  unfold freshStored
  apply List.countP_mono_left
  intro k _ hk
  simp only [decide_eq_true_eq] at hk ⊢
  intro hkv
  exact hk (h k hkv)

theorem countP_lt_of {α : Type} (l : List α) (p q : α → Bool)
    (himp : ∀ a ∈ l, p a = true → q a = true) (a : α) (ha : a ∈ l)
    (hpa : p a = false) (hqa : q a = true) : l.countP p < l.countP q := by
  induction l with
  | nil => cases ha
  | cons x t ih =>
    rw [List.countP_cons, List.countP_cons]
    have hhead : (if p x = true then 1 else 0) ≤ (if q x = true then 1 else 0) := by
      by_cases hpx : p x = true
      · rw [if_pos hpx, if_pos (himp x (List.mem_cons_self _ _) hpx)]
      · rw [if_neg hpx]
        split <;> omega
    rcases List.mem_cons.mp ha with rfl | hat
    · have hmono : t.countP p ≤ t.countP q :=
        List.countP_mono_left (fun b hb => himp b (List.mem_cons_of_mem _ hb))
      rw [hpa, hqa]
      simp only [Bool.false_eq_true, if_false, if_true]
      omega
    · have hstrict := ih (fun b hb => himp b (List.mem_cons_of_mem _ hb)) hat
      omega

theorem freshStored_cons_lt (ops : List (String × Operation)) (v : List String)
    (tgt : String) (hst : (lookupA ops tgt).isSome = true) (hnv : tgt ∉ v) :
    freshStored ops (tgt :: v) < freshStored ops v := by
  unfold freshStored
  have hmem : tgt ∈ ops.map Prod.fst := by
    by_contra hc
    rw [← lookupA_eq_none_iff] at hc
    rw [hc] at hst
    simp at hst
  refine countP_lt_of _ _ _ ?_ tgt hmem ?_ ?_
  · intro a _ hp
    simp only [decide_eq_true_eq] at hp ⊢
    intro hav
    exact hp (List.mem_cons_of_mem _ hav)
  · simp
  · simp [hnv]

theorem parentsBeforeAux_append (ops : List (String × Operation))
    (h : List Operation) : ∀ (seen : List String) (o : Operation),
    parentsBeforeAux ops seen (h ++ [o]) ↔
      (parentsBeforeAux ops seen h ∧
       ∀ p ∈ o.parents, (lookupA ops p).isSome = true →
         p ∈ seen ++ opIds h) := by
  induction h with
  | nil =>
    intro seen o
    simp [parentsBeforeAux, opIds]
  | cons x t ih =>
    intro seen o
    simp only [List.cons_append, parentsBeforeAux, List.append_eq]
    rw [ih (seen ++ [x.id]) o]
    constructor
    · rintro ⟨hx, ht, ho⟩
      refine ⟨⟨hx, ht⟩, ?_⟩
      intro p hp hst
      have := ho p hp hst
      simp only [opIds, List.map_cons, List.mem_append, List.mem_cons,
        List.mem_singleton] at this ⊢
      tauto
    · rintro ⟨⟨hx, ht⟩, ho⟩
      refine ⟨hx, ht, ?_⟩
      intro p hp hst
      have := ho p hp hst
      simp only [opIds, List.map_cons, List.mem_append, List.mem_cons,
        List.mem_singleton] at this ⊢
      tauto

theorem parentsBeforeAux_split (ops : List (String × Operation))
    (l₁ : List Operation) : ∀ (seen : List String) (x : Operation)
    (l₂ : List Operation),
    parentsBeforeAux ops seen (l₁ ++ x :: l₂) → ∀ p ∈ x.parents,
    (lookupA ops p).isSome = true → p ∈ seen ∨ p ∈ opIds l₁ := by
  induction l₁ with
  | nil =>
    intro seen x l₂ hpb p hp hst
    exact Or.inl (hpb.1 p hp hst)
  | cons y t ih =>
    intro seen x l₂ hpb p hp hst
    obtain ⟨hy, ht⟩ := hpb
    rcases ih (seen ++ [y.id]) x l₂ ht p hp hst with hseen | hids
    · rcases List.mem_append.mp hseen with hs | hy'
      · exact Or.inl hs
      · right
        simp only [opIds, List.map_cons, List.mem_cons]
        exact Or.inl (List.mem_singleton.mp hy')
    · right
      simp only [opIds, List.map_cons, List.mem_cons]
      simp only [opIds] at hids
      exact Or.inr hids

theorem nodup_ids_inj {h : List Operation} (hnd : (opIds h).Nodup)
    {x y : Operation} (hx : x ∈ h) (hy : y ∈ h) (hxy : x.id = y.id) : x = y :=
  List.inj_on_of_nodup_map hnd hx hy hxy

theorem nodup_split_unique {α : Type} {b : α} : ∀ (A C B D : List α),
    (A ++ b :: B).Nodup → A ++ b :: B = C ++ b :: D → A = C ∧ B = D := by
  intro A
  induction A with
  | nil =>
    intro C B D hnd heq
    cases C with
    | nil =>
      simp only [List.nil_append] at heq
      injection heq with h1 h2
      exact ⟨rfl, h2⟩
    | cons c C' =>
      simp only [List.nil_append, List.cons_append] at heq
      injection heq with h1 h2
      subst h1
      exfalso
      have hmem : b ∈ B := by
        rw [h2]
        simp
      exact (List.nodup_cons.mp hnd).1 hmem
  | cons a A' ih =>
    intro C B D hnd heq
    cases C with
    | nil =>
      simp only [List.cons_append, List.nil_append] at heq
      injection heq with h1 h2
      subst h1
      exfalso
      have hnd' : a ∉ A' ++ a :: B := (List.nodup_cons.mp (List.cons_append a A' (a :: B) ▸ hnd)).1
      exact hnd' (by simp)
    | cons c C' =>
      simp only [List.cons_append] at heq
      injection heq with h1 h2
      subst h1
      obtain ⟨hA, hB⟩ := ih C' B D
        (by simpa using (List.nodup_cons.mp (by simpa using hnd)).2) h2
      exact ⟨by rw [hA], hB⟩

theorem before_trans {h : List Operation} (hnd : (opIds h).Nodup)
    {a b c : Operation} (h1 : before h a b) (h2 : before h b c) :
    before h a c := by
  obtain ⟨l₁, l₂, l₃, he1⟩ := h1
  obtain ⟨m₁, m₂, m₃, he2⟩ := h2
  have hndl : h.Nodup := List.Nodup.of_map _ hnd
  have e1 : h = (l₁ ++ a :: l₂) ++ b :: l₃ := by simp [he1]
  have e2 : h = m₁ ++ b :: (m₂ ++ c :: m₃) := by simp [he2]
  obtain ⟨-, hBD⟩ := nodup_split_unique (l₁ ++ a :: l₂) m₁ l₃ (m₂ ++ c :: m₃)
    (by rw [← e1]; exact hndl) (e1.symm.trans e2)
  exact ⟨l₁, l₂ ++ b :: m₂, m₃, by simp [he1, hBD]⟩

theorem before_parent {ops : List (String × Operation)} {h : List Operation}
    (hpb : parentsBefore ops h) {x : Operation} {A B : List Operation}
    (hsplit : h = A ++ x :: B) {p : String} (hp : p ∈ x.parents)
    (hst : (lookupA ops p).isSome = true) :
    ∃ z, z ∈ h ∧ z.id = p ∧ before h z x := by
  have hpb' : parentsBeforeAux ops [] (A ++ x :: B) := by
    rw [← hsplit]
    exact hpb
  rcases parentsBeforeAux_split ops A [] x B hpb' p hp hst with hseen | hids
  · cases hseen
  · obtain ⟨z, hz, hzid⟩ := List.mem_map.mp hids
    obtain ⟨A₁, A₂, hA⟩ := List.append_of_mem hz
    refine ⟨z, by simp [hsplit, hA], hzid, A₁, A₂, B, ?_⟩
    simp [hsplit, hA]

theorem history_order {ops : List (String × Operation)}
    (_hkeys : keysConsistent ops) {h : List Operation}
    (hpb : parentsBefore ops h) (hnd : (opIds h).Nodup)
    (hA : ∀ o ∈ h, lookupA ops o.id = some o)
    {x : Operation} (hx : x ∈ h) {b : String}
    (htg : Relation.TransGen (opStep ops) x.id b)
    (hstb : (lookupA ops b).isSome = true) :
    ∃ z, z ∈ h ∧ z.id = b ∧ before h z x := by
  induction htg with
  | single hstep =>
    obtain ⟨opx, hlx, hpmem⟩ := hstep
    have hxx : opx = x := by
      have h2 := hA x hx
      rw [h2] at hlx
      exact (Option.some.inj hlx).symm
    obtain ⟨A, B, hsplit⟩ := List.append_of_mem hx
    exact before_parent hpb hsplit (hxx ▸ hpmem) hstb
  | @tail c d htg' hstep ih =>
    obtain ⟨opc, hlc, hpmem⟩ := hstep
    have hstc : (lookupA ops c).isSome = true := by rw [hlc]; rfl
    obtain ⟨z, hz, hzid, hbz⟩ := ih hstc
    have hz2 : lookupA ops c = some z := by rw [← hzid]; exact hA z hz
    have hzz : opc = z := by
      rw [hlc] at hz2
      exact Option.some.inj hz2
    obtain ⟨A, B, hsplit⟩ := List.append_of_mem hz
    obtain ⟨w, hw, hwid, hbw⟩ :=
      before_parent hpb hsplit (hzz ▸ hpmem) hstb
    exact ⟨w, hw, hwid, before_trans hnd hbw hbz⟩

/-- Acyclicity follows from any rank function that strictly decreases along
the stored parent relation. -/
theorem acyclic_of_rank (ops : List (String × Operation)) (rank : String → Nat)
    (h : ∀ a b, opStep ops a b → rank b < rank a) : acyclic ops := by
  intro x hx
  have hdesc : ∀ a b, Relation.TransGen (opStep ops) a b → rank b < rank a := by
    intro a b htg
    induction htg with
    | single hs => exact h _ _ hs
    | tail _ hs ih => exact lt_trans (h _ _ hs) ih
  exact lt_irrefl _ (hdesc x x hx)

/-- Main specification of the depth-first traversal, proved by induction on
the fuel: with fuel exceeding the number of unvisited stored identifiers and
every grey identifier reaching the target along stored parent edges, one call
(and likewise one pass over a list of targets all reached by every grey
identifier) preserves the accumulator invariant, preserves the grey set
exactly, and visits the target(s). -/
theorem dfs_spec (ops : List (String × Operation))
    (hkeys : keysConsistent ops) (hacyc : acyclic ops) :
    ∀ fuel : Nat,
      (∀ (tgt : String) (v : List String) (h : List Operation),
        freshStored ops v < fuel → dfsInv ops v h →
        (∀ g, graySet ops v h g → Relation.ReflTransGen (opStep ops) g tgt) →
        dfsPost ops v h (dfs ops fuel tgt (v, h)) ∧
          tgt ∈ (dfs ops fuel tgt (v, h)).1) ∧
      (∀ (ps : List String) (v : List String) (h : List Operation),
        freshStored ops v < fuel → dfsInv ops v h →
        (∀ g, graySet ops v h g → ∀ p ∈ ps,
          Relation.ReflTransGen (opStep ops) g p) →
        dfsPost ops v h (ps.foldl (fun a p => dfs ops fuel p a) (v, h)) ∧
          (∀ p ∈ ps, p ∈ (ps.foldl (fun a p => dfs ops fuel p a) (v, h)).1)) := by
  intro fuel
  induction fuel with
  | zero =>
    constructor
    · intro tgt v h hfuel
      exact absurd hfuel (Nat.not_lt_zero _)
    · intro ps v h hfuel
      exact absurd hfuel (Nat.not_lt_zero _)
  | succ fuel ih =>
    obtain ⟨ihD, ihL⟩ := ih
    have hd : ∀ (tgt : String) (v : List String) (h : List Operation),
        freshStored ops v < fuel + 1 → dfsInv ops v h →
        (∀ g, graySet ops v h g → Relation.ReflTransGen (opStep ops) g tgt) →
        dfsPost ops v h (dfs ops (fuel + 1) tgt (v, h)) ∧
          tgt ∈ (dfs ops (fuel + 1) tgt (v, h)).1 := by
      intro tgt v h hfuel hinv hstack
      obtain ⟨hA, hB, hC, hD⟩ := hinv
      by_cases hvis : tgt ∈ v
      · rw [show dfs ops (fuel + 1) tgt (v, h) = (v, h) from by
          simp [dfs, hvis]]
        exact ⟨⟨fun x hx => hx, ⟨[], by simp⟩, ⟨hA, hB, hC, hD⟩,
          fun g => Iff.rfl⟩, hvis⟩
      · cases hlk : lookupA ops tgt with
        | none =>
          rw [show dfs ops (fuel + 1) tgt (v, h) = (tgt :: v, h) from by
            simp [dfs, hvis, hlk]]
          refine ⟨⟨fun x hx => List.mem_cons_of_mem _ hx, ⟨[], by simp⟩,
            ⟨hA, hB, fun i hi => List.mem_cons_of_mem _ (hC i hi), hD⟩, ?_⟩,
            List.mem_cons_self _ _⟩
          intro g
          unfold graySet
          constructor
          · rintro ⟨hgv, hgst, hgh⟩
            rcases List.mem_cons.mp hgv with rfl | hgv'
            · rw [hlk] at hgst
              simp at hgst
            · exact ⟨hgv', hgst, hgh⟩
          · rintro ⟨hgv, hgst, hgh⟩
            exact ⟨List.mem_cons_of_mem _ hgv, hgst, hgh⟩
        | some op =>
          have hopid : op.id = tgt := keysConsistent_lookup hkeys hlk
          have hstored : (lookupA ops tgt).isSome = true := by rw [hlk]; rfl
          have hfuel' : freshStored ops (tgt :: v) < fuel := by
            have h1 := freshStored_cons_lt ops v tgt hstored hvis
            omega
          have hinv' : dfsInv ops (tgt :: v) h :=
            ⟨hA, hB, fun i hi => List.mem_cons_of_mem _ (hC i hi), hD⟩
          have hstack' : ∀ g, graySet ops (tgt :: v) h g →
              ∀ p ∈ op.parents, Relation.ReflTransGen (opStep ops) g p := by
            intro g hg p hp
            have hstep : opStep ops tgt p := ⟨op, hlk, hp⟩
            rcases hg with ⟨hgv, hgst, hgh⟩
            rcases List.mem_cons.mp hgv with rfl | hgv'
            · exact Relation.ReflTransGen.single hstep
            · exact Relation.ReflTransGen.tail
                (hstack g ⟨hgv', hgst, hgh⟩) hstep
          obtain ⟨⟨hQ1, ⟨d, hd2⟩, ⟨hA', hB', hC', hD'⟩, hG⟩, hPs⟩ :=
            ihL op.parents (tgt :: v) h hfuel' hinv' hstack'
          have hres : dfs ops (fuel + 1) tgt (v, h) =
              ((op.parents.foldl (fun a p => dfs ops fuel p a) (tgt :: v, h)).1,
               (op.parents.foldl (fun a p => dfs ops fuel p a) (tgt :: v, h)).2
                 ++ [op]) := by
            simp [dfs, hvis, hlk]
          rw [hres]
          have htgNotIdsH : tgt ∉ opIds h := fun hmem => hvis (hC _ hmem)
          have htgtgray : graySet ops
              (op.parents.foldl (fun a p => dfs ops fuel p a) (tgt :: v, h)).1
              (op.parents.foldl (fun a p => dfs ops fuel p a) (tgt :: v, h)).2
              tgt :=
            (hG tgt).mpr ⟨List.mem_cons_self _ _, hstored, htgNotIdsH⟩
          obtain ⟨htgV, -, htgNotIds⟩ := htgtgray
          refine ⟨⟨?_, ?_, ⟨?_, ?_, ?_, ?_⟩, ?_⟩, ?_⟩
          · exact fun x hx => hQ1 x (List.mem_cons_of_mem _ hx)
          · exact ⟨d ++ [op], by rw [hd2]; simp⟩
          · intro o ho
            rcases List.mem_append.mp ho with ho | ho
            · exact hA' o ho
            · rcases List.mem_singleton.mp ho with rfl
              rw [hopid]
              exact hlk
          · rw [show opIds ((op.parents.foldl (fun a p => dfs ops fuel p a)
                (tgt :: v, h)).2 ++ [op]) =
              opIds (op.parents.foldl (fun a p => dfs ops fuel p a)
                (tgt :: v, h)).2 ++ [op.id] from by simp [opIds]]
            rw [List.nodup_append]
            refine ⟨hB', List.nodup_singleton _, ?_⟩
            intro a ha hb
            rcases List.mem_singleton.mp hb with rfl
            rw [hopid] at ha
            exact htgNotIds ha
          · intro i hi
            rw [show opIds ((op.parents.foldl (fun a p => dfs ops fuel p a)
                (tgt :: v, h)).2 ++ [op]) =
              opIds (op.parents.foldl (fun a p => dfs ops fuel p a)
                (tgt :: v, h)).2 ++ [op.id] from by simp [opIds]] at hi
            rcases List.mem_append.mp hi with hi | hi
            · exact hC' i hi
            · rcases List.mem_singleton.mp hi with rfl
              rw [hopid]
              exact htgV
          · unfold parentsBefore
            rw [parentsBeforeAux_append]
            refine ⟨hD', ?_⟩
            intro p hp hst
            have hpv : p ∈ (op.parents.foldl (fun a p => dfs ops fuel p a)
                (tgt :: v, h)).1 := hPs p hp
            by_cases hpids : p ∈ opIds (op.parents.foldl
                (fun a p => dfs ops fuel p a) (tgt :: v, h)).2
            · simpa using hpids
            · exfalso
              have hpgray := (hG p).mp ⟨hpv, hst, hpids⟩
              obtain ⟨hpv2, -, hph⟩ := hpgray
              have hstep : opStep ops tgt p := ⟨op, hlk, hp⟩
              rcases List.mem_cons.mp hpv2 with rfl | hpv3
              · exact hacyc _ (Relation.TransGen.single hstep)
              · have hrtg := hstack p ⟨hpv3, hst, hph⟩
                exact hacyc tgt (Relation.TransGen.head' hstep hrtg)
          · intro g
            unfold graySet
            constructor
            · rintro ⟨hgv, hgst, hgh⟩
              have hgh' : g ∉ opIds (op.parents.foldl
                  (fun a p => dfs ops fuel p a) (tgt :: v, h)).2 := by
                intro hmem
                apply hgh
                simp only [opIds, List.map_append, List.mem_append]
                exact Or.inl hmem
              have hne : g ≠ tgt := by
                rintro rfl
                apply hgh
                simp [opIds, hopid]
              have hgold := (hG g).mp ⟨hgv, hgst, hgh'⟩
              obtain ⟨hgv2, -, hgh2⟩ := hgold
              rcases List.mem_cons.mp hgv2 with rfl | hgv3
              · exact absurd rfl hne
              · exact ⟨hgv3, hgst, hgh2⟩
            · rintro ⟨hgv, hgst, hgh⟩
              have hne : g ≠ tgt := by
                rintro rfl
                exact hvis hgv
              have hgnew := (hG g).mpr ⟨List.mem_cons_of_mem _ hgv, hgst, hgh⟩
              obtain ⟨hgv2, -, hgh2⟩ := hgnew
              refine ⟨hgv2, hgst, ?_⟩
              intro hmem
              simp only [opIds, List.map_append, List.mem_append,
                List.map_cons, List.map_nil, List.mem_singleton,
                List.mem_cons] at hmem
              rcases hmem with hmem | hmem
              · exact hgh2 (by simpa [opIds] using hmem)
              · rcases hmem with hmem | hmem
                · rw [hopid] at hmem
                  exact hne hmem
                · cases hmem
          · exact hQ1 tgt (List.mem_cons_self _ _)
    refine ⟨hd, ?_⟩
    intro ps
    induction ps with
    | nil =>
      intro v h hfuel hinv hstack
      exact ⟨⟨fun x hx => hx, ⟨[], by simp⟩, hinv, fun g => Iff.rfl⟩,
        by simp⟩
    | cons p pt ihp =>
      intro v h hfuel hinv hstack
      obtain ⟨⟨hQ1, ⟨d1, hd1⟩, hinv1, hG1⟩, hT1⟩ :=
        hd p v h hfuel hinv (fun g hg => hstack g hg p (List.mem_cons_self _ _))
      have hfuel2 : freshStored ops (dfs ops (fuel + 1) p (v, h)).1 < fuel + 1 :=
        lt_of_le_of_lt (freshStored_mono ops hQ1) hfuel
      have hstack2 : ∀ g, graySet ops (dfs ops (fuel + 1) p (v, h)).1
          (dfs ops (fuel + 1) p (v, h)).2 g → ∀ q ∈ pt,
          Relation.ReflTransGen (opStep ops) g q := by
        intro g hg q hq
        exact hstack g ((hG1 g).mp hg) q (List.mem_cons_of_mem _ hq)
      obtain ⟨⟨hQ2, ⟨d2, hd2⟩, hinv2, hG2⟩, hT2⟩ :=
        ihp (dfs ops (fuel + 1) p (v, h)).1 (dfs ops (fuel + 1) p (v, h)).2
          hfuel2 hinv1 hstack2
      rw [show (p :: pt).foldl (fun a p => dfs ops (fuel + 1) p a) (v, h) =
          pt.foldl (fun a p => dfs ops (fuel + 1) p a)
            ((dfs ops (fuel + 1) p (v, h)).1,
             (dfs ops (fuel + 1) p (v, h)).2) from by simp]
      refine ⟨⟨?_, ?_, hinv2, ?_⟩, ?_⟩
      · exact fun x hx => hQ2 x (hQ1 x hx)
      · exact ⟨d1 ++ d2, by rw [hd2, hd1]; simp⟩
      · intro g
        exact (hG2 g).trans (hG1 g)
      · intro q hq
        rcases List.mem_cons.mp hq with rfl | hq'
        · exact hQ2 q hT1
        · exact hT2 q hq'

/-- C6: for an operation stored in an acyclic, key-consistent DAG,
`GetCausalHistory` lists the operation and every stored ancestor (transitive
parent through stored records) exactly once, and every listed operation
appears after all of its listed ancestors (parents before children). -/
theorem c6_causal_history (dag : OperationDAG) (id : String) (op : Operation)
    (hkeys : keysConsistent dag.operations)
    (hacyc : acyclic dag.operations)
    (hop : lookupA dag.operations id = some op) :
    op ∈ getCausalHistory dag id ∧
    (∀ (aid : String) (a : Operation),
      Relation.TransGen (opStep dag.operations) id aid →
      lookupA dag.operations aid = some a → a ∈ getCausalHistory dag id) ∧
    (opIds (getCausalHistory dag id)).Nodup ∧
    (∀ x y, x ∈ getCausalHistory dag id → y ∈ getCausalHistory dag id →
      Relation.TransGen (opStep dag.operations) x.id y.id →
      before (getCausalHistory dag id) y x) := by
  have hfuel : freshStored dag.operations [] < dag.operations.length + 1 := by
    unfold freshStored
    calc (dag.operations.map Prod.fst).countP
          (fun k => decide (k ∉ ([] : List String)))
        ≤ (dag.operations.map Prod.fst).length := List.countP_le_length _
      _ = dag.operations.length := by simp
      _ < dag.operations.length + 1 := Nat.lt_succ_self _
  obtain ⟨⟨hQ1, ⟨d, hd⟩, ⟨hA, hB, hC, hD⟩, hG⟩, hT⟩ :=
    (dfs_spec dag.operations hkeys hacyc (dag.operations.length + 1)).1 id [] []
      hfuel ⟨by simp, by simp [opIds], by simp [opIds], trivial⟩
      (fun g hg => absurd hg.1 (List.not_mem_nil g))
  have hgch : getCausalHistory dag id =
      (dfs dag.operations (dag.operations.length + 1) id ([], [])).2 := rfl
  have hblack : ∀ g,
      g ∈ (dfs dag.operations (dag.operations.length + 1) id ([], [])).1 →
      (lookupA dag.operations g).isSome = true →
      g ∈ opIds (dfs dag.operations (dag.operations.length + 1) id ([], [])).2 := by
    intro g hgv hgst
    by_contra hgh
    exact absurd ((hG g).mp ⟨hgv, hgst, hgh⟩).1 (List.not_mem_nil g)
  have hidstored : (lookupA dag.operations id).isSome = true := by
    rw [hop]; rfl
  have hidIn := hblack id hT hidstored
  obtain ⟨o, ho, hoid⟩ := List.mem_map.mp hidIn
  have hoeq : o = op := by
    have h2 := hA o ho
    rw [hoid, hop] at h2
    exact (Option.some.inj h2).symm
  rw [hgch]
  refine ⟨hoeq ▸ ho, ?_, hB, ?_⟩
  · intro aid a htg hla
    have hopid2 : op.id = id := keysConsistent_lookup hkeys hop
    have hstb : (lookupA dag.operations aid).isSome = true := by
      rw [hla]; rfl
    have htg' : Relation.TransGen (opStep dag.operations) op.id aid := by
      rw [hopid2]; exact htg
    obtain ⟨z, hz, hzid, -⟩ :=
      history_order hkeys hD hB hA (hoeq ▸ ho) htg' hstb
    have hz2 := hA z hz
    rw [hzid, hla] at hz2
    have : a = z := Option.some.inj hz2
    rw [this]
    exact hz
  · intro x y hx hy htg
    have hstb : (lookupA dag.operations y.id).isSome = true := by
      rw [hA y hy]; rfl
    obtain ⟨z, hz, hzid, hbz⟩ := history_order hkeys hD hB hA hx htg hstb
    have hzy : z = y := nodup_ids_inj hB hz hy hzid
    exact hzy ▸ hbz

/-- C6 witness: the theorem applied to the concrete diamond DAG at `o4`, with
acyclicity discharged through an explicit rank function. -/
theorem c6_causal_history_witness :
    sampleO4 ∈ getCausalHistory sampleDAG "o4" ∧
    (opIds (getCausalHistory sampleDAG "o4")).Nodup :=
  have hacyc : acyclic sampleDAG.operations := by
    apply acyclic_of_rank sampleDAG.operations
      (fun s => if s = "o4" then 2 else if s = "o2" ∨ s = "o3" then 1 else 0)
    intro a b hstep
    obtain ⟨opa, hla, hpb⟩ := hstep
    have hops : sampleDAG.operations =
        [("o1", sampleO1), ("o2", sampleO2), ("o3", sampleO3),
         ("o4", sampleO4)] := by decide
    rw [hops] at hla
    simp only [lookupA] at hla
    split_ifs at hla with h1 h2 h3 h4
    · cases hla
      simp [sampleO1] at hpb
    · cases hla
      simp only [sampleO2, List.mem_singleton] at hpb
      subst hpb
      rw [← h2]
      decide
    · cases hla
      simp only [sampleO3, List.mem_singleton] at hpb
      subst hpb
      rw [← h3]
      decide
    · cases hla
      simp only [sampleO4, List.mem_cons, List.mem_singleton,
        List.not_mem_nil, or_false] at hpb
      rcases hpb with rfl | rfl
      · rw [← h4]
        decide
      · rw [← h4]
        decide
  let h := c6_causal_history sampleDAG "o4" sampleO4
    (by unfold keysConsistent; decide) hacyc (by decide)
  ⟨h.1, h.2.2.1⟩

end ContextDB
